import Mathlib

/-!
Verification development for the "loss" terminal pager.

The embedding covers the render-scheme algebra (src/render.rs), the finder
(src/finder.rs) and the chunked document engine (src/document.rs, src/chunk.rs),
shallowly embedded over byte strings modelled as lists of characters.  Fallible
or panicking Rust code is modelled with Option results, where none stands for a
panic, an error return, or divergence of the original loop.
-/

namespace Loss

/-- Byte strings of the Rust code, modelled as lists of characters (one
character per byte; the newline byte is the character '\n'). -/
abbrev Str := List Char

/-- Rust slicing s[a..b]: bytes of s from position a (inclusive) to b
(exclusive), truncated at the end of s. -/
def slice (s : Str) (a b : Nat) : Str := (s.drop a).take (b - a)

/-- Rust str::contains for a string pattern: true iff p occurs as a contiguous
substring of l.  The empty pattern occurs in every string. -/
def containsStr (l p : Str) : Bool := l.tails.any fun t => p.isPrefixOf t

theorem slice_length (s : Str) (a b : Nat) (hab : a ≤ b) (hb : b ≤ s.length) :
    (slice s a b).length = b - a := by
  simp [slice]
  omega

theorem slice_append (s : Str) (a b c : Nat) (hab : a ≤ b) (hbc : b ≤ c)
    (hb : b ≤ s.length) : slice s a c = slice s a b ++ slice s b c := by
  unfold slice
  rw [show c - a = (b - a) + (c - b) by omega, List.take_add]
  congr 1
  rw [List.drop_drop, show a + (b - a) = b by omega]

theorem slice_zero_length (s : Str) (b : Nat) : slice s 0 b = s.take b := by
  simp [slice]

theorem slice_all (s : Str) : slice s 0 s.length = s := by
  simp [slice]

/-! ### Render schemes (src/render.rs) -/

/-- Terminal colors used by the finder's highlight options. -/
inductive Color where
  | black | grey | blue | cyan | green | yellow | magenta | reset
deriving DecidableEq, Repr

/-- HighlightOption from src/finder.rs: a foreground and a background color. -/
structure HighlightOption where
  foreground_color : Color
  background_color : Color
deriving DecidableEq, Repr

/-- RenderScheme from src/render.rs. -/
inductive RenderScheme where
  | dim
  | highlight (opt : HighlightOption)
deriving DecidableEq, Repr

/-- A line of text together with styled byte ranges (src/render.rs).  A range
(a, b) stands for the Rust half-open range a..b. -/
structure LineWithRenderScheme where
  content : Str
  render_schemes : List ((Nat × Nat) × RenderScheme)
deriving DecidableEq, Repr

/-- ranges_have_overlap from src/render.rs. -/
def rangesHaveOverlap (r1 r2 : Nat × Nat) : Bool :=
  decide (r1.1 < r2.2) && decide (r1.2 > r2.1)

/-- The list-level body of LineWithRenderScheme::add_scheme_if_not_overlap: the
pair is appended unless its range overlaps an existing one. -/
def addSchemeIfNotOverlapList (schemes : List ((Nat × Nat) × RenderScheme))
    (range : Nat × Nat) (scheme : RenderScheme) : List ((Nat × Nat) × RenderScheme) :=
  if schemes.all fun e => !rangesHaveOverlap range e.1 then schemes ++ [(range, scheme)]
  else schemes

/-- LineWithRenderScheme::add_scheme_if_not_overlap from src/render.rs. -/
def LineWithRenderScheme.addScheme (l : LineWithRenderScheme)
    (range : Nat × Nat) (scheme : RenderScheme) : LineWithRenderScheme :=
  { l with render_schemes := addSchemeIfNotOverlapList l.render_schemes range scheme }

/-- LineWithRenderScheme::new from src/render.rs. -/
def LineWithRenderScheme.new (content : Str) : LineWithRenderScheme := ⟨content, []⟩

/-- LineWithRenderScheme::truncate from src/render.rs: Rust String::truncate
shortens the content to at most width bytes; the render schemes are not
touched by the function. -/
def LineWithRenderScheme.truncate (l : LineWithRenderScheme) (width : Nat) :
    LineWithRenderScheme :=
  { l with content := l.content.take width }

/-- The scheme-remapping part of LineWithRenderScheme::substr: each range is
intersected with the window and re-based to the window start; empty
intersections are dropped. -/
def substrSchemes (schemes : List ((Nat × Nat) × RenderScheme)) (w : Nat × Nat) :
    List ((Nat × Nat) × RenderScheme) :=
  schemes.filterMap fun rs =>
    if max rs.1.1 w.1 < min rs.1.2 w.2 then
      some ((max rs.1.1 w.1 - w.1, min rs.1.2 w.2 - w.1), rs.2)
    else none

/-- LineWithRenderScheme::substr from src/render.rs.  Returns none exactly when
the Rust code would panic: the slice content[w.1 .. min w.2 len] is taken only
when w.1 < len, and Rust range slicing panics when the range start exceeds its
end, i.e. when w.2 < w.1. -/
def LineWithRenderScheme.substr? (l : LineWithRenderScheme) (w : Nat × Nat) :
    Option LineWithRenderScheme :=
  if w.1 ≥ l.content.length then
    some ⟨[], substrSchemes l.render_schemes w⟩
  else if w.2 < w.1 then none
  else some ⟨slice l.content w.1 (min w.2 l.content.length), substrSchemes l.render_schemes w⟩

/-- The truncate behaviour the spec claims: content truncated, schemes lying
entirely at or beyond the width dropped, schemes straddling the width clipped
to their portion below it.  Stated only to be compared with the source's
truncate. -/
def truncateClaim (l : LineWithRenderScheme) (width : Nat) : LineWithRenderScheme :=
  ⟨l.content.take width,
   l.render_schemes.filterMap fun rs =>
     if width ≤ rs.1.1 then none else some ((rs.1.1, min rs.1.2 width), rs.2)⟩

/-- Claim C8 as stated is false at a concrete input: truncating the line "abcd"
carrying the scheme range [2, 4) to width 1 leaves the scheme list unchanged,
while the claim requires the range, which lies entirely at or beyond width 1,
to be dropped. -/
theorem truncate_claim_counterexample :
    LineWithRenderScheme.truncate ⟨['a','b','c','d'], [((2,4), RenderScheme.dim)]⟩ 1 ≠
      truncateClaim ⟨['a','b','c','d'], [((2,4), RenderScheme.dim)]⟩ 1 ∧
    (LineWithRenderScheme.truncate ⟨['a','b','c','d'], [((2,4), RenderScheme.dim)]⟩ 1).render_schemes =
      [((2,4), RenderScheme.dim)] := by
  constructor
  · decide
  · rfl

/-- Claim C8 (amended): truncate(w) truncates the content to at most w bytes
and leaves the render scheme list unchanged: no scheme is dropped or clipped. -/
theorem truncate_spec (l : LineWithRenderScheme) (w : Nat) :
    (l.truncate w).content = l.content.take w ∧
    (l.truncate w).content.length ≤ w ∧
    (l.truncate w).render_schemes = l.render_schemes := by
  refine ⟨rfl, ?_, rfl⟩
  simp [LineWithRenderScheme.truncate]

/-- The content part of substr, for ranges with start ≤ end (where the source
cannot panic). -/
def substrContent (c : Str) (w : Nat × Nat) : Str :=
  if c.length ≤ w.1 then [] else slice c w.1 (min w.2 c.length)

theorem substr?_eq_some (l : LineWithRenderScheme) (w : Nat × Nat) (hw : w.1 ≤ w.2) :
    l.substr? w = some ⟨substrContent l.content w, substrSchemes l.render_schemes w⟩ := by
  unfold LineWithRenderScheme.substr? substrContent
  by_cases h : l.content.length ≤ w.1
  · rw [if_pos h, if_pos h]
  · rw [if_neg h, if_neg h, if_neg (by omega)]

theorem slice_slice (s : Str) (x y u v : Nat) :
    slice (slice s x y) u v = slice s (x + u) (x + u + min (v - u) (y - x - u)) := by
  unfold slice
  rw [List.drop_take, List.take_take, List.drop_drop]
  congr 1
  omega

theorem substrContent_comp (c : Str) (a b : Nat × Nat) (ha : a.1 ≤ a.2)
    (hb : b.1 ≤ b.2) (hab : a.1 + b.2 ≤ a.2) :
    substrContent (substrContent c a) b = substrContent c (a.1 + b.1, a.1 + b.2) := by
  unfold substrContent
  by_cases hA : c.length ≤ a.1
  · rw [if_pos hA, if_pos (by simp : ([] : Str).length ≤ b.1), if_pos (by omega)]
  · rw [if_neg hA]
    have hlen1 : (slice c a.1 (min a.2 c.length)).length = min a.2 c.length - a.1 :=
      slice_length _ _ _ (by omega) (by omega)
    by_cases hB : (slice c a.1 (min a.2 c.length)).length ≤ b.1
    · rw [if_pos hB]
      rw [hlen1] at hB
      by_cases hC : c.length ≤ a.1 + b.1
      · rw [if_pos hC]
      · rw [if_neg hC]
        have hz : min (a.1 + b.2) c.length - (a.1 + b.1) = 0 := by omega
        simp [slice, hz]
    · rw [if_neg hB]
      rw [hlen1] at hB
      rw [if_neg (show ¬ c.length ≤ a.1 + b.1 by omega), hlen1, slice_slice]
      congr 1
      omega

theorem substrSchemes_comp (S : List ((Nat × Nat) × RenderScheme)) (a b : Nat × Nat)
    (hb : b.1 ≤ b.2) (hab : a.1 + b.2 ≤ a.2) :
    substrSchemes (substrSchemes S a) b = substrSchemes S (a.1 + b.1, a.1 + b.2) := by
  unfold substrSchemes
  rw [List.filterMap_filterMap]
  congr 1
  funext rs
  obtain ⟨⟨s1, s2⟩, sch⟩ := rs
  dsimp only
  by_cases h1 : max s1 a.1 < min s2 a.2
  · rw [if_pos h1]
    show (if _ then _ else _) = _
    by_cases h2 : max (max s1 a.1 - a.1) b.1 < min (min s2 a.2 - a.1) b.2
    · rw [if_pos h2, if_pos (show max s1 (a.1 + b.1) < min s2 (a.1 + b.2) by omega)]
      simp only [Option.some.injEq, Prod.mk.injEq]
      exact ⟨⟨by omega, by omega⟩, trivial⟩
    · rw [if_neg h2, if_neg (show ¬ max s1 (a.1 + b.1) < min s2 (a.1 + b.2) by omega)]
  · rw [if_neg h1]
    show (none : Option ((Nat × Nat) × RenderScheme)) = _
    rw [if_neg (show ¬ max s1 (a.1 + b.1) < min s2 (a.1 + b.2) by omega)]

/-- Claim C7 as stated is false at a concrete input: on the line "ab" with no
schemes, substr (0, 1) followed by substr (1, 2) yields the empty line, while a
single substr (0 + 1, 0 + 2) yields "b". -/
theorem substr_comp_counterexample :
    ((LineWithRenderScheme.new ['a','b']).substr? (0, 1)).bind
        (fun l1 => l1.substr? (1, 2)) ≠
      (LineWithRenderScheme.new ['a','b']).substr? (0 + 1, 0 + 2) := by
  decide

/-- Claim C7 (amended): substr is compositional provided the inner range fits
inside the width of the outer one, i.e. a.start + b.end ≤ a.end; the ranges
keep their claimed well-formedness start ≤ end.  Both content and the remapped
scheme list agree. -/
theorem substr_comp (l : LineWithRenderScheme) (a b : Nat × Nat) (ha : a.1 ≤ a.2)
    (hb : b.1 ≤ b.2) (hab : a.1 + b.2 ≤ a.2) :
    (l.substr? a).bind (fun l1 => l1.substr? b) = l.substr? (a.1 + b.1, a.1 + b.2) := by
  rw [substr?_eq_some l a ha, substr?_eq_some _ _ (show (a.1 + b.1, a.1 + b.2).1 ≤ (a.1 + b.1, a.1 + b.2).2 by dsimp; omega)]
  show (LineWithRenderScheme.substr? _ b) = _
  rw [substr?_eq_some _ b hb]
  simp only [Option.some.injEq, LineWithRenderScheme.mk.injEq]
  exact ⟨substrContent_comp l.content a b ha hb hab, substrSchemes_comp l.render_schemes a b hb hab⟩

/-- Claim C7 witness: the amended compositionality law holds at the concrete
line "abcdef" with a scheme, a = (1, 5) and b = (1, 3). -/
theorem substr_comp_witness :
    (1, 5).1 ≤ (1, 5).2 ∧ (1, 3).1 ≤ (1, 3).2 ∧ (1, 5).1 + (1, 3).2 ≤ (1, 5).2 ∧
    ((⟨['a','b','c','d','e','f'], [((2, 4), RenderScheme.dim)]⟩ :
        LineWithRenderScheme).substr? (1, 5)).bind (fun l1 => l1.substr? (1, 3)) =
      (⟨['a','b','c','d','e','f'], [((2, 4), RenderScheme.dim)]⟩ :
        LineWithRenderScheme).substr? ((1, 5).1 + (1, 3).1, (1, 5).1 + (1, 3).2) :=
  ⟨by decide, by decide, by decide,
    substr_comp ⟨['a','b','c','d','e','f'], [((2, 4), RenderScheme.dim)]⟩ (1, 5) (1, 3)
      (by decide) (by decide) (by decide)⟩

theorem substrSchemes_all_dropped (S : List ((Nat × Nat) × RenderScheme)) (w : Nat × Nat)
    (h : ∀ s ∈ S, s.1.2 ≤ w.1) : substrSchemes S w = [] := by
  rw [substrSchemes, List.filterMap_eq_nil_iff]
  intro rs hrs
  rw [if_neg]
  have := h rs hrs
  omega

/-- Claim C10: for a line whose scheme ranges all lie within its content and a
range r with start ≤ end, substr never panics (none is never returned), and
when r.start is at or beyond the content length it returns the empty line with
an empty scheme list. -/
theorem substr_no_panic (l : LineWithRenderScheme) (r : Nat × Nat) (hr : r.1 ≤ r.2)
    (hin : ∀ s ∈ l.render_schemes, s.1.2 ≤ l.content.length) :
    (l.substr? r).isSome ∧
    (l.content.length ≤ r.1 → l.substr? r = some ⟨[], []⟩) := by
  constructor
  · rw [substr?_eq_some l r hr]
    rfl
  · intro hge
    unfold LineWithRenderScheme.substr?
    rw [if_pos hge, substrSchemes_all_dropped _ _ (fun s hs => le_trans (hin s hs) hge)]

/-- Claim C10 witness: substr is safe on the concrete line "a" with scheme
range [0, 1) and the out-of-range request (2, 3), yielding the empty line. -/
theorem substr_no_panic_witness :
    (2, 3).1 ≤ (2, 3).2 ∧
    (∀ s ∈ [((0, 1), RenderScheme.dim)], s.1.2 ≤ (['a'] : Str).length) ∧
    (((⟨['a'], [((0, 1), RenderScheme.dim)]⟩ : LineWithRenderScheme).substr? (2, 3)).isSome ∧
      ((['a'] : Str).length ≤ (2, 3).1 →
        (⟨['a'], [((0, 1), RenderScheme.dim)]⟩ : LineWithRenderScheme).substr? (2, 3) =
          some ⟨[], []⟩)) :=
  ⟨by decide, by decide,
    substr_no_panic ⟨['a'], [((0, 1), RenderScheme.dim)]⟩ (2, 3) (by decide) (by decide)⟩

/-! ### Finder (src/finder.rs) -/

/-- HighlightFlag from src/finder.rs. -/
inductive HighlightFlag where
  | On | Off
deriving DecidableEq, Repr

/-- HighlightFlag::toggle. -/
def HighlightFlag.toggle : HighlightFlag → HighlightFlag
  | .On => .Off
  | .Off => .On

/-- AdvancedAction from src/finder.rs. -/
inductive AdvancedAction where
  | nothing | fold | exclusive
deriving DecidableEq, Repr

/-- AdvancedAction::toggle_fold. -/
def AdvancedAction.toggleFold : AdvancedAction → AdvancedAction
  | .fold => .nothing
  | _ => .fold

/-- AdvancedAction::toggle_exclusive. -/
def AdvancedAction.toggleExclusive : AdvancedAction → AdvancedAction
  | .exclusive => .nothing
  | _ => .exclusive

/-- PatternType from src/finder.rs. -/
inductive PatternType where
  | raw | regex
deriving DecidableEq, Repr

/-- PatternType::toggle. -/
def PatternType.toggle : PatternType → PatternType
  | .raw => .regex
  | .regex => .raw

/-- HighlightOption::from_slot_index.  Slot numbers other than 0..9 are
unreachable in the source; the final catch-all covers slot number 0. -/
def HighlightOption.fromSlotIndex (slot_index : Nat) : HighlightOption :=
  match slot_index with
  | 1 => ⟨.black, .grey⟩
  | 2 => ⟨.black, .blue⟩
  | 3 => ⟨.black, .cyan⟩
  | 4 => ⟨.black, .green⟩
  | 5 => ⟨.black, .yellow⟩
  | 6 => ⟨.magenta, .reset⟩
  | 7 => ⟨.blue, .reset⟩
  | 8 => ⟨.cyan, .reset⟩
  | 9 => ⟨.green, .reset⟩
  | _ => ⟨.yellow, .reset⟩

/-- array_index_to_slot_index from src/finder.rs. -/
def arrayIndexToSlotIndex (index : Nat) : Nat := (index + 1) % 10

/-- array_index_from_slot_index from src/finder.rs. -/
def arrayIndexFromSlotIndex (slot_index : Nat) : Nat := (slot_index + 9) % 10

/-- FinderSlot from src/finder.rs. -/
structure FinderSlot where
  slot_index : Nat
  highlight_flag : HighlightFlag
  highlight_option : HighlightOption
  advanced_action : AdvancedAction
  pattern_type : PatternType
  pattern : Option Str
deriving DecidableEq, Repr

/-- FinderSlot::from_slot_array_index. -/
def FinderSlot.fromSlotArrayIndex (index : Nat) : FinderSlot :=
  { slot_index := arrayIndexToSlotIndex index
    highlight_flag := .On
    highlight_option := HighlightOption.fromSlotIndex (arrayIndexToSlotIndex index)
    advanced_action := .nothing
    pattern_type := .raw
    pattern := none }

/-- FinderSlot::reset. -/
def FinderSlot.resetSlot (s : FinderSlot) : FinderSlot :=
  { s with highlight_flag := .On, advanced_action := .nothing,
           pattern_type := .raw, pattern := none }

/-- Rust str::find for a string pattern: position of the first occurrence of p
in l, if any (the empty pattern is found at position 0). -/
def findSub (l p : Str) : Option Nat :=
  (List.range (l.length + 1)).find? fun i => p.isPrefixOf (l.drop i)

/-- FinderSlot::find_range_of_match from src/finder.rs.  The regex engine of
the regex crate is external code; it is abstracted by the argument rx, giving
for a pattern and a haystack the byte range of the first match (the source
unwraps the compilation of the pattern, so a successfully compiled pattern is
assumed).  All callers in the source first check that the pattern is set; with
no pattern the source would panic on unwrap, modelled here as no match. -/
def FinderSlot.findRangeOfMatch (rx : Str → Str → Option (Nat × Nat))
    (s : FinderSlot) (line : Str) : Option (Nat × Nat) :=
  match s.pattern with
  | none => none
  | some p =>
    match s.pattern_type with
    | .raw => (findSub line p).map fun st => (st, st + p.length)
    | .regex => rx p line

/-- Finder from src/finder.rs.  The BTreeSet of active slot numbers is
modelled as a sorted duplicate-free list of naturals; the array of ten slots
as a list. -/
structure Finder where
  slots : List FinderSlot
  active_slots : List Nat
  menu_active : Bool
deriving DecidableEq, Repr

/-- Ordered insertion into the sorted duplicate-free list modelling the
BTreeSet of active slots. -/
def insertSorted (l : List Nat) (a : Nat) : List Nat :=
  match l with
  | [] => [a]
  | b :: bs => if a < b then a :: b :: bs else if a = b then b :: bs else b :: insertSorted bs a

/-- Finder::new. -/
def Finder.new : Finder :=
  { slots := (List.range 10).map FinderSlot.fromSlotArrayIndex
    active_slots := [1]
    menu_active := false }

/-- In-place update of the slot at an array index; the Rust array indexing
cannot go out of bounds since the indices are always reduced mod 10. -/
def modifyAt (l : List FinderSlot) (i : Nat) (g : FinderSlot → FinderSlot) : List FinderSlot :=
  match l.get? i with
  | none => l
  | some x => l.set i (g x)

/-- Finder::set_active_slot: the set is replaced by a singleton. -/
def Finder.setActiveSlot (f : Finder) (slot_index : Nat) : Finder :=
  { f with active_slots := [slot_index] }

/-- Finder::add_active_slot: BTreeSet::insert. -/
def Finder.addActiveSlot (f : Finder) (slot_index : Nat) : Finder :=
  { f with active_slots := insertSorted f.active_slots slot_index }

/-- Finder::remove_active_slot.  The source asserts that more than one slot is
active before removing; none models that panic.  The second assertion of the
source (the set is non-empty afterwards) can then never fire. -/
def Finder.removeActiveSlot (f : Finder) (slot_index : Nat) : Option Finder :=
  if 1 < f.active_slots.length then
    some { f with active_slots := f.active_slots.erase slot_index }
  else none

/-- The common loop of the toggle operations: apply g to the slot of every
active slot number. -/
def Finder.modifyActiveSlots (f : Finder) (g : FinderSlot → FinderSlot) : Finder :=
  let newSlots := f.active_slots.foldl (fun sl i => modifyAt sl (arrayIndexFromSlotIndex i) g) f.slots
  { f with slots := newSlots }

/-- Finder::toggle_highlight_flag. -/
def Finder.toggleHighlightFlag (f : Finder) : Finder :=
  f.modifyActiveSlots fun s => { s with highlight_flag := s.highlight_flag.toggle }

/-- Finder::toggle_fold_action. -/
def Finder.toggleFoldAction (f : Finder) : Finder :=
  f.modifyActiveSlots fun s => { s with advanced_action := s.advanced_action.toggleFold }

/-- Finder::toggle_exclusive_action. -/
def Finder.toggleExclusiveAction (f : Finder) : Finder :=
  f.modifyActiveSlots fun s => { s with advanced_action := s.advanced_action.toggleExclusive }

/-- Finder::toggle_pattern_type. -/
def Finder.togglePatternType (f : Finder) : Finder :=
  f.modifyActiveSlots fun s => { s with pattern_type := s.pattern_type.toggle }

/-- Finder::reset_active_slots. -/
def Finder.resetActiveSlots (f : Finder) : Finder :=
  f.modifyActiveSlots FinderSlot.resetSlot

/-- Finder::update_search_pattern.  The source asserts exactly one active slot
and writes the pattern into it; none models the assertion failing. -/
def Finder.updateSearchPattern (f : Finder) (p : Str) : Option Finder :=
  match f.active_slots with
  | [i] =>
    let newSlots := modifyAt f.slots (arrayIndexFromSlotIndex i) fun s => { s with pattern := some p }
    some { f with slots := newSlots }
  | _ => none

/-- FinderAction from src/finder.rs. -/
inductive FinderAction where
  | switchActiveSlot (index : Nat)
  | addActiveSlotStart
  | addActiveSlot (index : Nat)
  | removeActiveSlotStart
  | removeActiveSlot (index : Nat)
  | addOrRemoveActiveSlotCancel
  | toggleHighlightFlag
  | toggleFoldAction
  | toggleExclusiveAction
  | togglePatternType
  | resetSlot
  | menuOn
  | menuOff
deriving DecidableEq, Repr

/-- Finder::handle_event.  The Start actions hit unreachable code in the
source (they are consumed by the manager), modelled as none. -/
def Finder.handleEvent (f : Finder) (a : FinderAction) : Option Finder :=
  match a with
  | .menuOn => some { f with menu_active := true }
  | .menuOff => some { f with menu_active := false }
  | .addActiveSlotStart => none
  | .removeActiveSlotStart => none
  | .switchActiveSlot i => some (f.setActiveSlot i)
  | .addActiveSlot i => some (f.addActiveSlot i)
  | .removeActiveSlot i => f.removeActiveSlot i
  | .addOrRemoveActiveSlotCancel => some f
  | .toggleHighlightFlag => some f.toggleHighlightFlag
  | .toggleFoldAction => some f.toggleFoldAction
  | .toggleExclusiveAction => some f.toggleExclusiveAction
  | .togglePatternType => some f.togglePatternType
  | .resetSlot => some f.resetActiveSlots

/-- The finder operations the manager can invoke on a Finder: the dispatched
finder actions plus the pattern update done when a search is entered. -/
inductive FinderOp where
  | event (a : FinderAction)
  | updatePattern (p : Str)

/-- Apply one finder operation. -/
def Finder.applyOp (f : Finder) : FinderOp → Option Finder
  | .event a => f.handleEvent a
  | .updatePattern p => f.updateSearchPattern p

/-- Run a sequence of finder operations, failing if any panics. -/
def runFinderOps (f : Finder) : List FinderOp → Option Finder
  | [] => some f
  | op :: ops =>
    match f.applyOp op with
    | none => none
    | some f' => runFinderOps f' ops

theorem insertSorted_length (l : List Nat) (a : Nat) :
    l.length ≤ (insertSorted l a).length := by
  induction l with
  | nil => simp [insertSorted]
  | cons b bs ih =>
    unfold insertSorted
    by_cases h1 : a < b
    · simp [h1]
    · by_cases h2 : a = b
      · simp [h1, h2]
      · simp only [if_neg h1, if_neg h2, List.length_cons]
        omega

theorem applyOp_active_nonempty (f f' : Finder) (op : FinderOp)
    (h1 : 1 ≤ f.active_slots.length) (h : f.applyOp op = some f') :
    1 ≤ f'.active_slots.length := by
  cases op with
  | updatePattern p =>
    unfold Finder.applyOp Finder.updateSearchPattern at h
    cases hm : f.active_slots with
    | nil => rw [hm] at h; simp at h
    | cons i rest =>
      cases rest with
      | nil =>
        rw [hm] at h
        simp only [Option.some.injEq] at h
        subst h
        simpa using h1
      | cons j rest2 => rw [hm] at h; simp at h
  | event a =>
    cases a with
    | addActiveSlotStart => simp [Finder.applyOp, Finder.handleEvent] at h
    | removeActiveSlotStart => simp [Finder.applyOp, Finder.handleEvent] at h
    | switchActiveSlot i =>
      simp only [Finder.applyOp, Finder.handleEvent, Option.some.injEq] at h
      subst h
      simp [Finder.setActiveSlot]
    | addActiveSlot i =>
      simp only [Finder.applyOp, Finder.handleEvent, Option.some.injEq] at h
      subst h
      have hins := insertSorted_length f.active_slots i
      simp only [Finder.addActiveSlot]
      omega
    | removeActiveSlot i =>
      simp only [Finder.applyOp, Finder.handleEvent] at h
      unfold Finder.removeActiveSlot at h
      by_cases hl : 1 < f.active_slots.length
      · rw [if_pos hl] at h
        simp only [Option.some.injEq] at h
        subst h
        simp only [List.length_erase]
        split <;> omega
      · rw [if_neg hl] at h; simp at h
    | addOrRemoveActiveSlotCancel =>
      simp only [Finder.applyOp, Finder.handleEvent, Option.some.injEq] at h
      subst h; exact h1
    | menuOn =>
      simp only [Finder.applyOp, Finder.handleEvent, Option.some.injEq] at h
      subst h; exact h1
    | menuOff =>
      simp only [Finder.applyOp, Finder.handleEvent, Option.some.injEq] at h
      subst h; exact h1
    | toggleHighlightFlag =>
      simp only [Finder.applyOp, Finder.handleEvent, Option.some.injEq] at h
      subst h
      simpa [Finder.toggleHighlightFlag, Finder.modifyActiveSlots] using h1
    | toggleFoldAction =>
      simp only [Finder.applyOp, Finder.handleEvent, Option.some.injEq] at h
      subst h
      simpa [Finder.toggleFoldAction, Finder.modifyActiveSlots] using h1
    | toggleExclusiveAction =>
      simp only [Finder.applyOp, Finder.handleEvent, Option.some.injEq] at h
      subst h
      simpa [Finder.toggleExclusiveAction, Finder.modifyActiveSlots] using h1
    | togglePatternType =>
      simp only [Finder.applyOp, Finder.handleEvent, Option.some.injEq] at h
      subst h
      simpa [Finder.togglePatternType, Finder.modifyActiveSlots] using h1
    | resetSlot =>
      simp only [Finder.applyOp, Finder.handleEvent, Option.some.injEq] at h
      subst h
      simpa [Finder.resetActiveSlots, Finder.modifyActiveSlots] using h1

theorem runFinderOps_active_nonempty (ops : List FinderOp) (f g : Finder)
    (h1 : 1 ≤ f.active_slots.length) (h : runFinderOps f ops = some g) :
    1 ≤ g.active_slots.length := by
  induction ops generalizing f with
  | nil =>
    unfold runFinderOps at h
    simp only [Option.some.injEq] at h
    subst h
    exact h1
  | cons op ops ih =>
    unfold runFinderOps at h
    cases hstep : f.applyOp op with
    | none => rw [hstep] at h; simp at h
    | some f' =>
      rw [hstep] at h
      exact ih f' (applyOp_active_nonempty f f' op h1 hstep) h

/-- Claim C9: starting from Finder::new, whose active set is the singleton
containing slot 1, any successfully executed sequence of finder operations
(switch replaces the set by a singleton, add inserts, remove refuses, by
assertion, to act when only one slot is active) leaves at least one active
slot. -/
theorem finder_active_slots_nonempty (ops : List FinderOp) (f : Finder)
    (h : runFinderOps Finder.new ops = some f) : 1 ≤ f.active_slots.length :=
  runFinderOps_active_nonempty ops Finder.new f (by decide) h

/-- Claim C9 witness: adding slot 3 and then removing slot 1 succeeds and
leaves the active set non-empty. -/
theorem finder_active_slots_nonempty_witness :
    runFinderOps Finder.new
        [.event (.addActiveSlot 3), .event (.removeActiveSlot 1)] =
      some { Finder.new with active_slots := [3] } ∧
    1 ≤ ({ Finder.new with active_slots := [3] } : Finder).active_slots.length :=
  ⟨by decide,
   finder_active_slots_nonempty [.event (.addActiveSlot 3), .event (.removeActiveSlot 1)]
     { Finder.new with active_slots := [3] } (by decide)⟩

/-- Finder::can_pass_advance_action from src/finder.rs.  Note that the source
collects the raw pattern strings of fold and exclusive slots and tests them
with str::contains, regardless of each slot's configured pattern type. -/
def Finder.canPassAdvanceAction (f : Finder) (line : Str) : Bool :=
  let fold_patterns := f.slots.filterMap fun s =>
    if s.advanced_action = AdvancedAction.fold then s.pattern else none
  if fold_patterns.any fun p => containsStr line p then false
  else
    let exclusive_patterns := f.slots.filterMap fun s =>
      if s.advanced_action = AdvancedAction.exclusive then s.pattern else none
    if !exclusive_patterns.isEmpty && (exclusive_patterns.all fun ep => !containsStr line ep) then
      false
    else true

/-- The per-slot match of claim C3's wording: the slot's pattern, when set and
non-empty, is evaluated with the slot's configured pattern type (raw substring
search or the abstracted regex engine rx).  Stated only to be compared with
the source's behaviour. -/
def slotClaimMatches (rx : Str → Str → Option (Nat × Nat)) (s : FinderSlot) (line : Str) : Bool :=
  match s.pattern with
  | none => false
  | some p =>
    if p = [] then false
    else
      match s.pattern_type with
      | .raw => containsStr line p
      | .regex => (rx p line).isSome

/-- Claim C3's description of can_pass_advance_action: a line is filtered out
iff a fold slot's pattern matches it (by configured type) or some exclusive
slot has a non-empty pattern and no exclusive slot's pattern matches; empty or
unset patterns contribute to neither filter.  Stated only to be compared with
the source's behaviour. -/
def canPassAdvanceActionClaim (rx : Str → Str → Option (Nat × Nat)) (f : Finder)
    (line : Str) : Bool :=
  if f.slots.any fun s => decide (s.advanced_action = AdvancedAction.fold) &&
      slotClaimMatches rx s line then false
  else if (f.slots.any fun s => decide (s.advanced_action = AdvancedAction.exclusive) &&
        !(s.pattern.getD []).isEmpty && s.pattern.isSome) &&
      (f.slots.all fun s => !(decide (s.advanced_action = AdvancedAction.exclusive) &&
        slotClaimMatches rx s line)) then false
  else true

/-- The finder state of the C3 counterexample: a single fold slot whose
pattern is set to the empty string. -/
def c3Finder : Finder :=
  { slots := [{ slot_index := 1, highlight_flag := .On,
                highlight_option := HighlightOption.fromSlotIndex 1,
                advanced_action := .fold, pattern_type := .raw, pattern := some [] }]
    active_slots := [1]
    menu_active := false }

/-- Claim C3 as stated is false at a concrete input: with a fold slot whose
pattern is the empty string, the claim says the empty pattern contributes to
neither filter, so the line "x" passes; the source tests the empty pattern
with str::contains, which holds of every line, and filters the line out. -/
theorem can_pass_advance_action_counterexample :
    c3Finder.canPassAdvanceAction ['x'] = false ∧
    canPassAdvanceActionClaim (fun _ _ => none) c3Finder ['x'] = true := by
  decide

/-- Claim C3 (amended): can_pass_advance_action returns false iff either some
fold slot's set pattern occurs as a raw substring of the line, or some
exclusive slot has a set pattern and no exclusive slot's set pattern occurs as
a raw substring of the line.  Matching is raw substring search regardless of
the slot's configured pattern type, a set empty pattern occurs in every line,
and only unset patterns contribute to neither filter. -/
theorem can_pass_advance_action_spec (f : Finder) (line : Str) :
    f.canPassAdvanceAction line = false ↔
      ((∃ s ∈ f.slots, s.advanced_action = AdvancedAction.fold ∧
          ∃ p, s.pattern = some p ∧ containsStr line p = true) ∨
       ((∃ s ∈ f.slots, s.advanced_action = AdvancedAction.exclusive ∧ s.pattern.isSome) ∧
        (∀ s ∈ f.slots, s.advanced_action = AdvancedAction.exclusive →
          ∀ p, s.pattern = some p → containsStr line p = false))) := by
  have hfold : ((f.slots.filterMap fun s =>
      if s.advanced_action = AdvancedAction.fold then s.pattern else none).any
        fun p => containsStr line p) = true ↔
      (∃ s ∈ f.slots, s.advanced_action = AdvancedAction.fold ∧
        ∃ p, s.pattern = some p ∧ containsStr line p = true) := by
    simp only [List.any_eq_true, List.mem_filterMap, Option.ite_none_right_eq_some]
    constructor
    · rintro ⟨p, ⟨s, hs, hact, hp⟩, hc⟩
      exact ⟨s, hs, hact, p, hp, hc⟩
    · rintro ⟨s, hs, hact, p, hp, hc⟩
      exact ⟨p, ⟨s, hs, hact, hp⟩, hc⟩
  have hexne : ((f.slots.filterMap fun s =>
      if s.advanced_action = AdvancedAction.exclusive then s.pattern else none).isEmpty = false) ↔
      (∃ s ∈ f.slots, s.advanced_action = AdvancedAction.exclusive ∧ s.pattern.isSome) := by
    rw [List.isEmpty_eq_false_iff_exists_mem]
    simp only [List.mem_filterMap, Option.ite_none_right_eq_some]
    constructor
    · rintro ⟨p, s, hs, hact, hp⟩
      exact ⟨s, hs, hact, by simp [hp]⟩
    · rintro ⟨s, hs, hact, hp⟩
      obtain ⟨p, hp⟩ := Option.isSome_iff_exists.mp hp
      exact ⟨p, s, hs, hact, hp⟩
  have hall : ((f.slots.filterMap fun s =>
      if s.advanced_action = AdvancedAction.exclusive then s.pattern else none).all
        fun ep => !containsStr line ep) = true ↔
      (∀ s ∈ f.slots, s.advanced_action = AdvancedAction.exclusive →
        ∀ p, s.pattern = some p → containsStr line p = false) := by
    simp only [List.all_eq_true, List.mem_filterMap, Option.ite_none_right_eq_some,
      Bool.not_eq_true']
    constructor
    · rintro h s hs hact p hp
      exact h p ⟨s, hs, hact, hp⟩
    · rintro h p ⟨s, hs, hact, hp⟩
      exact h s hs hact p hp
  rw [← hfold, ← hexne, ← hall]
  unfold Finder.canPassAdvanceAction
  by_cases h1 : ((f.slots.filterMap fun s =>
      if s.advanced_action = AdvancedAction.fold then s.pattern else none).any
        fun p => containsStr line p) = true
  · simp [h1]
  · simp only [h1]
    rw [if_neg (by simpa using h1)]
    by_cases h2 : ((f.slots.filterMap fun s =>
        if s.advanced_action = AdvancedAction.exclusive then s.pattern else none).isEmpty = false)
    · by_cases h3 : ((f.slots.filterMap fun s =>
          if s.advanced_action = AdvancedAction.exclusive then s.pattern else none).all
            fun ep => !containsStr line ep) = true
      · rw [if_pos (by simp [h2, h3])]
        simp [h1, h2, h3]
      · rw [if_neg (by simp [h3])]
        simp [h1, h3]
    · rw [if_neg (by simp_all)]
      simp [h1, h2]

/-- One slot's scan-and-add loop from Finder::attach_render_scheme: find a
match in the suffix at from_pos, add its absolute range if it overlaps no
accepted range, and advance past it.  A zero-width match makes the source loop
forever, and a position beyond the line would make the slicing panic; both are
modelled as none.  fuel bounds the recursion; line.length + 2 is enough for
every in-bounds matcher, since the position strictly increases. -/
def scanSlotAdd (rx : Str → Str → Option (Nat × Nat)) (s : FinderSlot) (line : Str) :
    Nat → Nat → List ((Nat × Nat) × RenderScheme) → Option (List ((Nat × Nat) × RenderScheme))
  | 0, _, _ => none
  | fuel + 1, from_pos, acc =>
    if line.length < from_pos then none
    else
      match s.findRangeOfMatch rx (line.drop from_pos) with
      | none => some acc
      | some (ms, me) =>
        if me = 0 then none
        else
          scanSlotAdd rx s line fuel (from_pos + me)
            (addSchemeIfNotOverlapList acc (from_pos + ms, from_pos + me)
              (RenderScheme.highlight s.highlight_option))

/-- The slots in the order attach_render_scheme considers them: active slots
first, then inactive ones, each group in internal array order. -/
def Finder.orderedSlots (f : Finder) : List FinderSlot :=
  let parts := f.slots.partition fun slot => f.active_slots.contains slot.slot_index
  parts.1 ++ parts.2

/-- The slot loop of Finder::attach_render_scheme: slots with highlight off or
no pattern are skipped, the others scan the line accumulating accepted scheme
ranges. -/
def attachSlotsGo (rx : Str → Str → Option (Nat × Nat)) (line : Str) :
    List FinderSlot → List ((Nat × Nat) × RenderScheme) →
      Option (List ((Nat × Nat) × RenderScheme))
  | [], acc => some acc
  | s :: rest, acc =>
    if s.highlight_flag = HighlightFlag.Off ∨ s.pattern = none then
      attachSlotsGo rx line rest acc
    else
      match scanSlotAdd rx s line (line.length + 2) 0 acc with
      | none => none
      | some acc' => attachSlotsGo rx line rest acc'

/-- Finder::attach_render_scheme from src/finder.rs.  none models a panic or
divergence of the source (zero-width matches loop forever there). -/
def Finder.attachRenderScheme (rx : Str → Str → Option (Nat × Nat)) (f : Finder)
    (line : Str) : Option LineWithRenderScheme :=
  (attachSlotsGo rx line f.orderedSlots []).map fun schemes => ⟨line, schemes⟩

/-- The pure discovery scan of claim C6: all of a slot's non-overlapping
matches, scanning the line left to right and advancing past each match,
independent of which ranges end up accepted. -/
def discoverMatches (rx : Str → Str → Option (Nat × Nat)) (s : FinderSlot) (line : Str) :
    Nat → Nat → Option (List (Nat × Nat))
  | 0, _ => none
  | fuel + 1, from_pos =>
    if line.length < from_pos then none
    else
      match s.findRangeOfMatch rx (line.drop from_pos) with
      | none => some []
      | some (ms, me) =>
        if me = 0 then none
        else
          (discoverMatches rx s line fuel (from_pos + me)).map
            fun rest => (from_pos + ms, from_pos + me) :: rest

/-- Greedy acceptance of claim C6: each discovered range is added only if it
overlaps no already-accepted range; overlapping lower-priority ranges are
silently skipped. -/
def acceptRanges (acc : List ((Nat × Nat) × RenderScheme)) (ranges : List (Nat × Nat))
    (scheme : RenderScheme) : List ((Nat × Nat) × RenderScheme) :=
  ranges.foldl (fun a r => addSchemeIfNotOverlapList a r scheme) acc

/-- The claim-side slot loop: only slots with highlight on and a set pattern
contribute; each contributes all its discovered matches, accepted greedily in
priority order. -/
def attachClaimGo (rx : Str → Str → Option (Nat × Nat)) (line : Str) :
    List FinderSlot → List ((Nat × Nat) × RenderScheme) →
      Option (List ((Nat × Nat) × RenderScheme))
  | [], acc => some acc
  | s :: rest, acc =>
    if s.highlight_flag = HighlightFlag.On ∧ s.pattern.isSome then
      match discoverMatches rx s line (line.length + 2) 0 with
      | none => none
      | some rs =>
        attachClaimGo rx line rest (acceptRanges acc rs (RenderScheme.highlight s.highlight_option))
    else attachClaimGo rx line rest acc

/-- The scheme list claim C6 describes: slots in active-first order, the
contributing ones adding their discovered matches under the no-overlap rule. -/
def attachClaimSchemes (rx : Str → Str → Option (Nat × Nat)) (f : Finder) (line : Str) :
    Option (List ((Nat × Nat) × RenderScheme)) :=
  attachClaimGo rx line f.orderedSlots []

theorem scanSlotAdd_eq_discover (rx : Str → Str → Option (Nat × Nat)) (s : FinderSlot)
    (line : Str) (fuel : Nat) :
    ∀ (pos : Nat) (acc : List ((Nat × Nat) × RenderScheme)),
    scanSlotAdd rx s line fuel pos acc =
      (discoverMatches rx s line fuel pos).map
        (fun rs => acceptRanges acc rs (RenderScheme.highlight s.highlight_option)) := by
  induction fuel with
  | zero => intro pos acc; rfl
  | succ fuel ih =>
    intro pos acc
    unfold scanSlotAdd discoverMatches
    by_cases hg : line.length < pos
    · rw [if_pos hg, if_pos hg]
      rfl
    · rw [if_neg hg, if_neg hg]
      cases hm : s.findRangeOfMatch rx (line.drop pos) with
      | none => rfl
      | some r =>
        obtain ⟨ms, me⟩ := r
        dsimp only
        by_cases hz : me = 0
        · rw [if_pos hz, if_pos hz]
          rfl
        · rw [if_neg hz, if_neg hz, ih]
          cases hd : discoverMatches rx s line fuel (pos + me) with
          | none => rfl
          | some rest => simp [acceptRanges]

theorem attachSlotsGo_eq_claim (rx : Str → Str → Option (Nat × Nat)) (line : Str)
    (sl : List FinderSlot) : ∀ acc, attachSlotsGo rx line sl acc = attachClaimGo rx line sl acc := by
  induction sl with
  | nil => intro acc; rfl
  | cons s rest ih =>
    intro acc
    unfold attachSlotsGo attachClaimGo
    by_cases h : s.highlight_flag = HighlightFlag.Off ∨ s.pattern = none
    · rw [if_pos h, if_neg, ih]
      rintro ⟨hOn, hSome⟩
      rcases h with h | h
      · rw [hOn] at h; exact HighlightFlag.noConfusion h
      · rw [h] at hSome; exact Bool.noConfusion hSome
    · rw [if_neg h, if_pos, scanSlotAdd_eq_discover]
      · cases hd : discoverMatches rx s line (line.length + 2) 0 with
        | none => rfl
        | some rs => exact ih _
      · push_neg at h
        obtain ⟨h1, h2⟩ := h
        refine ⟨?_, Option.isSome_iff_ne_none.mpr h2⟩
        cases hf : s.highlight_flag with
        | On => rfl
        | Off => exact absurd hf h1

/-- Claim C6: whenever attach_render_scheme returns, the returned line keeps
the input content, and its scheme list is exactly the claim's description:
slots considered active-first then inactive, each group in internal array
order; only slots with highlight on and a set pattern contribute; each
contributes all its non-overlapping matches scanning left to right; a
discovered range is kept only when it overlaps no range accepted earlier in
that priority order, otherwise it is silently skipped. -/
theorem attach_render_scheme_spec (rx : Str → Str → Option (Nat × Nat)) (f : Finder)
    (line : Str) (res : LineWithRenderScheme)
    (h : f.attachRenderScheme rx line = some res) :
    res.content = line ∧ attachClaimSchemes rx f line = some res.render_schemes := by
  unfold Finder.attachRenderScheme at h
  cases hg : attachSlotsGo rx line f.orderedSlots [] with
  | none => rw [hg] at h; exact Option.noConfusion h
  | some schemes =>
    rw [hg] at h
    simp only [Option.map_some', Option.some.injEq] at h
    subst h
    exact ⟨rfl, by rw [attachClaimSchemes, ← attachSlotsGo_eq_claim, hg]⟩

/-- The two-slot finder of the C6 witness: the active slot 1 searches for
"ab", the inactive slot 2 for "ba". -/
def c6Finder : Finder :=
  { slots := [{ slot_index := 1, highlight_flag := .On,
                highlight_option := ⟨.black, .grey⟩,
                advanced_action := .nothing, pattern_type := .raw, pattern := some ['a','b'] },
              { slot_index := 2, highlight_flag := .On,
                highlight_option := ⟨.black, .blue⟩,
                advanced_action := .nothing, pattern_type := .raw, pattern := some ['b','a'] }]
    active_slots := [1]
    menu_active := false }

/-- Claim C6 witness: on the line "aba" the active slot's match [0, 2) is
accepted and the inactive slot's overlapping match [1, 3) is skipped. -/
theorem attach_render_scheme_spec_witness :
    Finder.attachRenderScheme (fun _ _ => none) c6Finder ['a','b','a'] =
      some ⟨['a','b','a'],
        [((0, 2), RenderScheme.highlight ⟨Color.black, Color.grey⟩)]⟩ ∧
    ((⟨['a','b','a'], [((0, 2), RenderScheme.highlight ⟨Color.black, Color.grey⟩)]⟩ :
        LineWithRenderScheme).content = ['a','b','a'] ∧
      attachClaimSchemes (fun _ _ => none) c6Finder ['a','b','a'] =
        some (⟨['a','b','a'], [((0, 2), RenderScheme.highlight ⟨Color.black, Color.grey⟩)]⟩ :
          LineWithRenderScheme).render_schemes) :=
  ⟨by decide, attach_render_scheme_spec (fun _ _ => none) c6Finder ['a','b','a'] _ (by decide)⟩

/-! ### Line splitting toolbox

The document engine splits byte ranges of the file on the newline byte; the
following pure functions and lemmas describe that structure. -/

/-- Prepend a character to the first piece of a split (the nil case cannot
arise: splitLines never returns the empty list). -/
def consHead (c : Char) : List Str → List Str
  | [] => [[c]]
  | r :: rs => (c :: r) :: rs

/-- Split a string at every newline.  The result has one piece per newline
plus a final (possibly empty) piece holding the trailing text; no piece
contains a newline. -/
def splitLines : Str → List Str
  | [] => [[]]
  | c :: cs => if c = '\n' then [] :: splitLines cs else consHead c (splitLines cs)

/-- Rebuild a newline-terminated region from its rows: every row is emitted
followed by a newline. -/
def concatNl (rows : List Str) : Str := (rows.map fun r => r ++ ['\n']).join

/-- The byte size of a newline-terminated region: each row contributes its
length plus one for the newline. -/
def sumLens (rows : List Str) : Nat := (rows.map fun r => r.length + 1).sum

theorem concatNl_nil : concatNl [] = [] := rfl

theorem concatNl_cons (r : Str) (rows : List Str) :
    concatNl (r :: rows) = r ++ '\n' :: concatNl rows := by
  simp [concatNl]

theorem concatNl_append (rows1 rows2 : List Str) :
    concatNl (rows1 ++ rows2) = concatNl rows1 ++ concatNl rows2 := by
  simp [concatNl]

theorem sumLens_nil : sumLens [] = 0 := rfl

theorem sumLens_cons (r : Str) (rows : List Str) :
    sumLens (r :: rows) = r.length + 1 + sumLens rows := by
  simp [sumLens]

theorem sumLens_append (rows1 rows2 : List Str) :
    sumLens (rows1 ++ rows2) = sumLens rows1 + sumLens rows2 := by
  simp [sumLens]

theorem concatNl_length (rows : List Str) : (concatNl rows).length = sumLens rows := by
  induction rows with
  | nil => rfl
  | cons r rows ih => simp [concatNl_cons, sumLens_cons, ih]; omega

theorem splitLines_ne_nil (s : Str) : splitLines s ≠ [] := by
  cases s with
  | nil => simp [splitLines]
  | cons c cs =>
    unfold splitLines
    by_cases h : c = '\n'
    · simp [h]
    · rw [if_neg h]
      cases hs : splitLines cs with
      | nil => simp [consHead]
      | cons r rs => simp [consHead]

theorem splitLines_no_nl (s : Str) (h : '\n' ∉ s) : splitLines s = [s] := by
  induction s with
  | nil => rfl
  | cons c cs ih =>
    unfold splitLines
    rw [if_neg (by intro hc; exact h (hc ▸ List.mem_cons_self c cs))]
    rw [ih (fun hm => h (List.mem_cons_of_mem c hm))]
    rfl

theorem splitLines_nlfree_append (r u : Str) (h : '\n' ∉ r) :
    splitLines (r ++ '\n' :: u) = r :: splitLines u := by
  induction r with
  | nil => simp [splitLines]
  | cons c cs ih =>
    have hc : c ≠ '\n' := fun hc => h (hc ▸ List.mem_cons_self c cs)
    have hcs : '\n' ∉ cs := fun hm => h (List.mem_cons_of_mem c hm)
    show splitLines (c :: (cs ++ '\n' :: u)) = (c :: cs) :: splitLines u
    conv_lhs => rw [splitLines]
    rw [if_neg hc, ih hcs, consHead]

theorem splitLines_concatNl_append (rows : List Str) (t : Str)
    (h : ∀ r ∈ rows, '\n' ∉ r) :
    splitLines (concatNl rows ++ t) = rows ++ splitLines t := by
  induction rows with
  | nil => simp [concatNl]
  | cons r rows ih =>
    rw [concatNl_cons, List.append_assoc, List.cons_append]
    rw [splitLines_nlfree_append r _ (h r (List.mem_cons_self r rows))]
    rw [ih (fun r' hr' => h r' (List.mem_cons_of_mem r hr'))]
    rfl

theorem splitLines_pieces_no_nl (s : Str) : ∀ r ∈ splitLines s, '\n' ∉ r := by
  induction s with
  | nil => intro r hr; simp [splitLines] at hr; simp [hr]
  | cons c cs ih =>
    intro r hr
    unfold splitLines at hr
    by_cases h : c = '\n'
    · rw [if_pos h] at hr
      rcases List.mem_cons.mp hr with h1 | h1
      · simp [h1]
      · exact ih r h1
    · rw [if_neg h] at hr
      cases hs : splitLines cs with
      | nil => exact absurd hs (splitLines_ne_nil cs)
      | cons p ps =>
        rw [hs, consHead] at hr
        rcases List.mem_cons.mp hr with h1 | h1
        · subst h1
          intro hm
          rcases List.mem_cons.mp hm with h2 | h2
          · exact h h2.symm
          · exact ih p (hs ▸ List.mem_cons_self p ps) h2
        · exact ih r (hs ▸ List.mem_cons_of_mem p h1)

theorem splitLines_join (s : Str) :
    concatNl (splitLines s).dropLast ++ (splitLines s).getLastD [] = s := by
  induction s with
  | nil => rfl
  | cons c cs ih =>
    unfold splitLines
    rcases hs : splitLines cs with _ | ⟨p, ps⟩
    · exact absurd hs (splitLines_ne_nil cs)
    · rw [hs] at ih
      by_cases h : c = '\n'
      · rw [if_pos h, h]
        rw [List.dropLast_cons_of_ne_nil (by simp), concatNl_cons]
        simpa using ih
      · rw [if_neg h, consHead]
        cases ps with
        | nil =>
          simp only [List.dropLast_single, concatNl_nil, List.nil_append,
            List.getLastD_cons, List.getLastD_nil] at ih ⊢
          rw [ih]
        | cons q qs =>
          rw [List.dropLast_cons_of_ne_nil (by simp), concatNl_cons] at ih ⊢
          simp only [List.getLastD_cons] at ih ⊢
          simp [← ih]

theorem getLastD_mem_of_ne_nil (l : List Str) (d : Str) (h : l ≠ []) : l.getLastD d ∈ l := by
  induction l generalizing d with
  | nil => exact absurd rfl h
  | cons a l ih =>
    cases l with
    | nil => simp [List.getLastD_cons, List.getLastD_nil]
    | cons b m =>
      rw [List.getLastD_cons]
      exact List.mem_cons_of_mem a (ih a (by simp))

theorem splitLines_last_no_nl (s : Str) : '\n' ∉ (splitLines s).getLastD [] :=
  splitLines_pieces_no_nl s _ (getLastD_mem_of_ne_nil (splitLines s) [] (splitLines_ne_nil s))

theorem getLastD_mem {α : Type} (l : List α) (d : α) (h : l ≠ []) : l.getLastD d ∈ l := by
  induction l generalizing d with
  | nil => exact absurd rfl h
  | cons a l ih =>
    cases l with
    | nil => simp
    | cons b m =>
      rw [List.getLastD_cons]
      exact List.mem_cons_of_mem a (ih a (by simp))

theorem getLastD_append_right {α : Type} (x y : List α) (d : α) (h : y ≠ []) :
    (x ++ y).getLastD d = y.getLastD d := by
  rw [List.getLastD_eq_getLast?, List.getLastD_eq_getLast?,
    List.getLast?_append_of_ne_nil x h]

theorem getLastD_concat {α : Type} (l : List α) (a d : α) : (l ++ [a]).getLastD d = a := by
  rw [getLastD_append_right l [a] d (by simp)]
  rfl

theorem concatNl_getLastD (rows : List Str) (h : rows ≠ []) (d : Char) :
    (concatNl rows).getLastD d = '\n' := by
  induction rows with
  | nil => exact absurd rfl h
  | cons r rows ih =>
    rw [concatNl_cons]
    cases hrows : rows with
    | nil =>
      rw [concatNl_nil]
      exact getLastD_concat r '\n' d
    | cons r2 rows2 =>
      rw [← hrows]
      have hne : concatNl rows ≠ [] := by
        rw [hrows, concatNl_cons]
        simp
      rw [show r ++ '\n' :: concatNl rows = (r ++ ['\n']) ++ concatNl rows by simp,
        getLastD_append_right _ _ _ hne]
      exact ih (by rw [hrows]; simp)

/-- The final logical line of a file, mirroring the pop of the final row in
Document::load_chunk: empty for the empty file; for a file ending in a
newline, the last newline-terminated line including that newline (the last
piece of the split is then empty); otherwise the trailing un-terminated
text. -/
def fileLastLine (f : Str) : Str :=
  if f = [] then []
  else if (splitLines f).getLastD [] = [] then
    ((splitLines f).dropLast.getLastD []) ++ ['\n']
  else (splitLines f).getLastD []

/-- last_line_start_offset at the file level: document size minus the length
of the last line. -/
def lastLineStart (f : Str) : Nat := f.length - (fileLastLine f).length

/-- A byte offset is a line start when it is 0 or follows a newline. -/
def isLineStart (f : Str) (o : Nat) : Prop := o = 0 ∨ f.get? (o - 1) = some '\n'

theorem getLastD_cons_ne_nil {α : Type} (a : α) (l : List α) (d : α) (h : l ≠ []) :
    (a :: l).getLastD d = l.getLastD d := by
  show ([a] ++ l).getLastD d = _
  exact getLastD_append_right [a] l d h

theorem concatNl_eq_dropLast (rows : List Str) (h : rows ≠ []) :
    concatNl rows = concatNl rows.dropLast ++ (rows.getLastD [] ++ ['\n']) := by
  induction rows with
  | nil => exact absurd rfl h
  | cons r rows ih =>
    cases rows with
    | nil => simp [concatNl_cons, concatNl_nil]
    | cons r2 rows2 =>
      rw [List.dropLast_cons_of_ne_nil (by simp), getLastD_cons_ne_nil _ _ _ (by simp),
        concatNl_cons r (r2 :: rows2), ih (by simp), concatNl_cons r ((r2 :: rows2).dropLast)]
      simp

theorem file_decomp (f : Str) :
    ∃ rows L, (∀ r ∈ rows, '\n' ∉ r) ∧ fileLastLine f = L ∧ f = concatNl rows ++ L ∧
      lastLineStart f = sumLens rows := by
  have hmain : ∃ rows, (∀ r ∈ rows, '\n' ∉ r) ∧ f = concatNl rows ++ fileLastLine f := by
    by_cases h0 : f = []
    · exact ⟨[], by simp, by simp [h0, fileLastLine, concatNl_nil]⟩
    · unfold fileLastLine
      rw [if_neg h0]
      by_cases hlp : (splitLines f).getLastD [] = []
      · rw [if_pos hlp]
        have hj := splitLines_join f
        rw [hlp, List.append_nil] at hj
        have hdne : (splitLines f).dropLast ≠ [] := by
          intro hd
          rw [hd, concatNl_nil] at hj
          exact h0 hj.symm
        refine ⟨(splitLines f).dropLast.dropLast, ?_, ?_⟩
        · intro r hr
          exact splitLines_pieces_no_nl f r
            ((List.dropLast_sublist _).subset ((List.dropLast_sublist _).subset hr))
        · nth_rewrite 1 [← hj]
          exact concatNl_eq_dropLast _ hdne
      · rw [if_neg hlp]
        exact ⟨(splitLines f).dropLast,
          fun r hr => splitLines_pieces_no_nl f r ((List.dropLast_sublist _).subset hr),
          (splitLines_join f).symm⟩
  obtain ⟨rows, hnl, hdec⟩ := hmain
  refine ⟨rows, fileLastLine f, hnl, rfl, hdec, ?_⟩
  have h2 := congrArg List.length hdec
  rw [List.length_append, concatNl_length] at h2
  unfold lastLineStart
  omega

theorem fileLastLine_shape (f : Str) :
    (∃ M : Str, '\n' ∉ M ∧ fileLastLine f = M ++ ['\n']) ∨ '\n' ∉ fileLastLine f := by
  unfold fileLastLine
  by_cases h0 : f = []
  · right; simp [h0]
  · rw [if_neg h0]
    by_cases hlp : (splitLines f).getLastD [] = []
    · rw [if_pos hlp]
      left
      refine ⟨_, ?_, rfl⟩
      by_cases hd : (splitLines f).dropLast = []
      · rw [hd]
        simp
      · exact splitLines_pieces_no_nl f _ ((List.dropLast_sublist _).subset (getLastD_mem _ _ hd))
    · rw [if_neg hlp]
      right
      exact splitLines_last_no_nl f

theorem fileLastLine_length_le (f : Str) : (fileLastLine f).length ≤ f.length := by
  obtain ⟨rows, L, _, hL, hf, _⟩ := file_decomp f
  rw [hL, hf, List.length_append]
  omega

theorem lastLineStart_add (f : Str) :
    lastLineStart f + (fileLastLine f).length = f.length := by
  have := fileLastLine_length_le f
  unfold lastLineStart
  omega

theorem lastLineStart_le (f : Str) : lastLineStart f ≤ f.length :=
  Nat.sub_le _ _

theorem endsNl_iff (f : Str) (h0 : f ≠ []) :
    f.getLastD ' ' = '\n' ↔ (splitLines f).getLastD [] = [] := by
  constructor
  · intro h
    by_contra hne
    have hj := splitLines_join f
    have hchar : f.getLastD ' ' = ((splitLines f).getLastD []).getLastD ' ' := by
      nth_rewrite 1 [← hj]
      exact getLastD_append_right _ _ _ hne
    have hmem : ((splitLines f).getLastD []).getLastD ' ' ∈ (splitLines f).getLastD [] :=
      getLastD_mem _ _ hne
    rw [← hchar, h] at hmem
    exact splitLines_last_no_nl f hmem
  · intro h
    have hj := splitLines_join f
    rw [h, List.append_nil] at hj
    have hdne : (splitLines f).dropLast ≠ [] := by
      intro hd
      rw [hd, concatNl_nil] at hj
      exact h0 hj.symm
    nth_rewrite 1 [← hj]
    exact concatNl_getLastD _ hdne ' '

theorem nl_in_last_region (f : Str) (q : Nat) (hq : lastLineStart f ≤ q)
    (hnl : f.get? q = some '\n') : q + 1 = f.length := by
  obtain ⟨rows, L, hnlr, hL, hf, hsum⟩ := file_decomp f
  subst hf
  have hlenC : (concatNl rows).length = sumLens rows := concatNl_length rows
  have hqC : (concatNl rows).length ≤ q := by omega
  rw [List.get?_append_right hqC] at hnl
  rcases fileLastLine_shape (concatNl rows ++ L) with ⟨M, hM, hLM⟩ | hno
  · rw [hL] at hLM
    subst hLM
    rcases Nat.lt_trichotomy (q - (concatNl rows).length) M.length with hlt | heq | hgt
    · rw [List.get?_append hlt] at hnl
      exact absurd (List.get?_mem hnl) hM
    · rw [List.length_append, List.length_append]
      simp only [List.length_cons, List.length_nil]
      omega
    · rw [List.get?_append_right (by omega)] at hnl
      have hnone : (['\n'] : Str).get? (q - (concatNl rows).length - M.length) = none :=
        List.get?_eq_none.mpr (by simp; omega)
      rw [hnone] at hnl
      exact Option.noConfusion hnl
  · rw [hL] at hno
    exact absurd (List.get?_mem hnl) hno

/-! ### Chunk (src/chunk.rs) -/

/-- Chunk from src/chunk.rs: a line-aligned byte slice with its bounds. -/
structure Chunk where
  offset_begin : Nat
  offset_end : Nat
  rows : List Str
deriving DecidableEq, Repr

/-- Index of the first newline of a string (Rust str::find for '\n'). -/
def firstNlIdx : Str → Option Nat
  | [] => none
  | c :: cs => if c = '\n' then some 0 else (firstNlIdx cs).map (· + 1)

/-- Chunk::build_chunk from src/chunk.rs: split the content on newlines,
optionally discarding the partial first line (up to and including the first
newline) and the trailing un-terminated text.  Returns none when drop_first is
requested on content without a newline: the source unwraps the find there. -/
def buildChunk (content : Str) (content_offset : Nat) (drop_first drop_last : Bool) :
    Option Chunk :=
  let cur0? := if drop_first then (firstNlIdx content).map (· + 1) else some 0
  match cur0? with
  | none => none
  | some cur0 =>
    let ps := splitLines (content.drop cur0)
    let rows0 := ps.dropLast
    let trailing := ps.getLastD []
    if !drop_last && decide (trailing ≠ []) then
      some ⟨content_offset + cur0, content_offset + content.length, rows0 ++ [trailing]⟩
    else
      some ⟨content_offset + cur0, content_offset + (cur0 + sumLens rows0), rows0⟩

/-- The row walk of Chunk::query_line_index. -/
def queryLineIndexGo (rows : List Str) (cur offset idx : Nat) : Option Nat :=
  match rows with
  | [] => none
  | r :: rs =>
    if offset ≤ cur + r.length then some idx
    else queryLineIndexGo rs (cur + r.length + 1) offset (idx + 1)

/-- Chunk::query_line_index from src/chunk.rs: the index of the row containing
offset.  none models the precondition assertion (offset within the chunk) or
the unreachable end of the walk. -/
def Chunk.queryLineIndex (c : Chunk) (offset : Nat) : Option Nat :=
  if c.offset_begin ≤ offset ∧ offset < c.offset_end then
    queryLineIndexGo c.rows c.offset_begin offset 0
  else none

/-- The row-start walk of query_line_index_exactly. -/
def queryLineIndexExactlyGo (rows : List Str) (cur offset idx : Nat) : Option Nat :=
  match rows with
  | [] => none
  | r :: rs =>
    if offset = cur then some idx
    else queryLineIndexExactlyGo rs (cur + r.length + 1) offset (idx + 1)

/-- Modelled from the spec: Chunk::query_line_index_exactly is called by the
document queries but its definition is missing from src/chunk.rs.  Per spec
section 4.1 it is query_line_index restricted to offsets that equal a row
start, any other offset being a contract violation (modelled as none): it
returns the index i with offset = offset_begin plus the sizes of the first i
rows. -/
def Chunk.queryLineIndexExactly (c : Chunk) (offset : Nat) : Option Nat :=
  queryLineIndexExactlyGo c.rows c.offset_begin offset 0

/-- Modelled from the spec: Chunk::query_line_start_offset is called by
query_offset_by_timestamp but its definition is missing from src/chunk.rs.
Per spec section 4.1 it returns offset_begin plus the sizes of the first i
rows. -/
def Chunk.queryLineStartOffset (c : Chunk) (i : Nat) : Nat :=
  c.offset_begin + sumLens (c.rows.take i)

/-! ### Log timestamps (src/log_timestamp.rs and the chrono crate)

chrono is an external library; the parsing done by NaiveDateTime's
parse_and_remainder for the two fixed format strings the source uses is
modelled from chrono's documented behaviour: numeric fields greedily read
bounded digit runs, literals must match exactly, and the optional fraction
reads a dot followed by up to nine digits as nanoseconds. -/

/-- A calendar date as chrono's NaiveDate. -/
structure Date where
  y : Nat
  mo : Nat
  dy : Nat
deriving DecidableEq, Repr

/-- A time of day with nanoseconds as chrono's NaiveTime. -/
structure Time where
  h : Nat
  mi : Nat
  s : Nat
  ns : Nat
deriving DecidableEq, Repr

/-- chrono's NaiveDateTime. -/
structure DateTime where
  date : Date
  time : Time
deriving DecidableEq, Repr

/-- Embedding into a single natural, strictly monotone in the lexicographic
(date, time) order for in-range field values; chrono's NaiveDateTime order is
modelled by comparing these keys. -/
def DateTime.key (t : DateTime) : Nat :=
  ((((((t.date.y * 13 + t.date.mo) * 32 + t.date.dy) * 25 + t.time.h) * 61 + t.time.mi) * 62 +
      t.time.s) * 1000000000) + t.time.ns

/-- The comparison datetime >= target of the source is target.le datetime. -/
def DateTime.le (a b : DateTime) : Bool := decide (a.key ≤ b.key)

/-- The two log timestamp formats of src/log_timestamp.rs, tried strict to
loose. -/
inductive TsFormat where
  | ymdHmsFrac
  | bracketYmdHms
deriving DecidableEq, Repr

/-- Decimal digit test. -/
def isDigit (c : Char) : Bool := decide ('0' ≤ c) && decide (c ≤ '9')

/-- Value of a decimal digit. -/
def digitVal (c : Char) : Nat := c.toNat - '0'.toNat

/-- Greedily read at most k leading digits. -/
def takeDigits : Nat → Str → (List Char × Str)
  | 0, s => ([], s)
  | _ + 1, [] => ([], [])
  | k + 1, c :: cs =>
    if isDigit c then
      let (ds, rest) := takeDigits k cs
      (c :: ds, rest)
    else ([], c :: cs)

/-- Value of a digit run. -/
def digitsVal (ds : List Char) : Nat := ds.foldl (fun a c => a * 10 + digitVal c) 0

/-- Parse a decimal number of one to k digits. -/
def parseNum (k : Nat) (s : Str) : Option (Nat × Str) :=
  match takeDigits k s with
  | ([], _) => none
  | (ds, rest) => some (digitsVal ds, rest)

/-- Expect a literal character. -/
def parseChar (c : Char) (s : Str) : Option Str :=
  match s with
  | [] => none
  | x :: xs => if x = c then some xs else none

/-- The optional fraction item %.9f: nothing, or a dot followed by one to nine
digits giving nanoseconds. -/
def parseFrac (s : Str) : Option (Nat × Str) :=
  match s with
  | '.' :: rest =>
    match takeDigits 9 rest with
    | ([], _) => none
    | (ds, rest2) => some (digitsVal ds * 10 ^ (9 - ds.length), rest2)
  | _ => some (0, s)

/-- chrono's validity check for the parsed date fields. -/
def validDate (d : Date) : Bool :=
  decide (1 ≤ d.mo) && decide (d.mo ≤ 12) && decide (1 ≤ d.dy) && decide (d.dy ≤ 31)

/-- chrono's validity check for the parsed time fields. -/
def validTime (t : Time) : Bool :=
  decide (t.h < 24) && decide (t.mi < 60) && decide (t.s < 60)

/-- Parse %Y-%m-%d. -/
def parseDateYmd (s : Str) : Option (Date × Str) := do
  let (y, s1) ← parseNum 4 s
  let s2 ← parseChar '-' s1
  let (mo, s3) ← parseNum 2 s2
  let s4 ← parseChar '-' s3
  let (dy, s5) ← parseNum 2 s4
  let d : Date := ⟨y, mo, dy⟩
  if validDate d then return (d, s5) else none

/-- Parse %H:%M:%S with the optional fraction when the format has %.9f. -/
def parseTimeHms (withFrac : Bool) (s : Str) : Option (Time × Str) := do
  let (h, s1) ← parseNum 2 s
  let s2 ← parseChar ':' s1
  let (mi, s3) ← parseNum 2 s2
  let s4 ← parseChar ':' s3
  let (sec, s5) ← parseNum 2 s4
  let (ns, s6) ← if withFrac then parseFrac s5 else some (0, s5)
  let t : Time := ⟨h, mi, sec, ns⟩
  if validTime t then return (t, s6) else none

/-- chrono NaiveDateTime::parse_and_remainder for the two format strings used
by the source; returns the parsed datetime and the remaining input. -/
def parseAndRemainder (s : Str) (fmt : TsFormat) : Option (DateTime × Str) :=
  match fmt with
  | .ymdHmsFrac => do
    let (d, s1) ← parseDateYmd s
    let s2 ← parseChar ' ' s1
    let (t, s3) ← parseTimeHms true s2
    return (⟨d, t⟩, s3)
  | .bracketYmdHms => do
    let s0 ← parseChar '[' s
    let (d, s1) ← parseDateYmd s0
    let s2 ← parseChar ' ' s1
    let (t, s3) ← parseTimeHms false s2
    let s4 ← parseChar ']' s3
    return (⟨d, t⟩, s4)

/-- detect_log_timstamp_format from src/log_timestamp.rs (sic): the first of
the two formats that parses the line. -/
def detectLogTimstampFormat (line : Str) : Option TsFormat :=
  if (parseAndRemainder line .ymdHmsFrac).isSome then some .ymdHmsFrac
  else if (parseAndRemainder line .bracketYmdHms).isSome then some .bracketYmdHms
  else none

/-! ### Document (src/document.rs) -/

/-- DEFAULT_CHUNK_SIZE from src/document.rs. -/
def DEFAULT_CHUNK_SIZE : Nat := 65536

/-- Document from src/document.rs, over a pure byte source: the reader is the
file contents and reads are slices of it. -/
structure Document where
  file : Str
  chunks : List Chunk
  log_timestamp_format : Option TsFormat
  log_default_date : Option Date
  last_line : Option Str
  document_size : Nat
  default_chunk_size : Nat
deriving DecidableEq, Repr

/-- The chunk walk of Document::get_chunk_index_by_offset. -/
def getChunkIndexGo (chunks : List Chunk) (idx offset : Nat) : Option Nat :=
  match chunks with
  | [] => none
  | c :: cs =>
    if offset ≥ c.offset_end then getChunkIndexGo cs (idx + 1) offset
    else if offset ≥ c.offset_begin then some idx
    else none

/-- Document::get_chunk_index_by_offset from src/document.rs. -/
def Document.getChunkIndexByOffset (d : Document) (offset : Nat) : Option Nat :=
  getChunkIndexGo d.chunks 0 offset

/-- The forward slide of load_chunk's overlap avoidance: while the begin
offset is not left of the next chunk, move it to that chunk's end. -/
def slideBeginGo : List Chunk → Nat → Nat
  | [], b => b
  | c :: cs, b => if b < c.offset_begin then b else slideBeginGo cs c.offset_end

/-- The begin-side overlap avoidance of Document::load_chunk. -/
def slideBegin (chunks : List Chunk) (b : Nat) : Nat :=
  match getChunkIndexGo chunks 0 b with
  | none => b
  | some k => slideBeginGo (chunks.drop k) b

/-- The backward slide of load_chunk's overlap avoidance: while the end offset
is not right of the previous chunk, move it to that chunk's begin. -/
def slideEndGo : List Chunk → Nat → Nat
  | [], e => e
  | c :: cs, e => if e > c.offset_end then e else slideEndGo cs c.offset_begin

/-- The end-side overlap avoidance of Document::load_chunk (the source walks
the chunks up to the covering one in reverse). -/
def slideEnd (chunks : List Chunk) (e : Nat) : Nat :=
  match getChunkIndexGo chunks 0 e with
  | none => e
  | some k => slideEndGo ((chunks.take (k + 1)).reverse) e

/-- The insertion position of load_chunk: the first index whose chunk does not
begin strictly before the new chunk. -/
def insertPos (chunks : List Chunk) (b : Nat) : Nat :=
  (chunks.takeWhile fun c => decide (c.offset_begin < b)).length

/-- The removal scan of load_chunk: walk all chunks from the insertion index
and remember one past the last chunk whose end is within the new chunk. -/
def removeUntilGo : List Chunk → Nat → Nat → Nat → Nat
  | [], _, acc, _ => acc
  | c :: cs, idx, acc, newEnd =>
    removeUntilGo cs (idx + 1) (if c.offset_end ≤ newEnd then idx + 1 else acc) newEnd

/-- One past the last removed chunk index of load_chunk's drain. -/
def removeUntil (chunks : List Chunk) (i newEnd : Nat) : Nat :=
  removeUntilGo (chunks.drop i) i i newEnd

/-- The tail of Document::load_chunk: discard a row-less chunk, otherwise
drain the contained chunks and insert the new one, returning its index. -/
def finishInsert (d : Document) (ch : Chunk) : Document × Option Nat :=
  if ch.rows = [] then (d, none)
  else
    let i := insertPos d.chunks ch.offset_begin
    let r := removeUntil d.chunks i ch.offset_end
    ({ d with chunks := d.chunks.take i ++ ch :: d.chunks.drop r }, some i)

/-- Document::load_chunk from src/document.rs.  The outer none models a panic
(the begin/end assertion, a failed read, drop_first on newline-free content,
or an empty tail chunk); the inner none is the source's Ok(None).  When the
load covers the file's tail the final row is popped into last_line, keeping
the file's trailing newline if present, before the chunk is inserted. -/
def Document.loadChunk (d : Document) (offset_begin offset_end : Nat) :
    Option (Document × Option Nat) :=
  let oe := min offset_end d.document_size
  if offset_begin < oe then
    let b := slideBegin d.chunks offset_begin
    let e := slideEnd d.chunks oe
    if b ≥ e then some (d, none)
    else
      let b' := b - 1
      let content := slice d.file b' e
      if content.length = 0 then none
      else
        match buildChunk content b' (decide (b' > 0)) (!decide (e ≥ d.document_size)) with
        | none => none
        | some ch =>
          if e ≥ d.document_size then
            if ch.rows = [] then none
            else
              let lastRow0 := ch.rows.getLastD []
              let lastRow := if content.getLastD ' ' = '\n' then lastRow0 ++ ['\n'] else lastRow0
              let ch2 : Chunk := ⟨ch.offset_begin, ch.offset_end - lastRow.length, ch.rows.dropLast⟩
              some (finishInsert { d with last_line := some lastRow } ch2)
          else some (finishInsert d ch)
  else none

/-- Document::new from src/document.rs: record the size, load the final chunk
window when the file is non-empty (which must set last_line), otherwise use
the empty last line. -/
def Document.new (file : Str) : Option Document :=
  let d0 : Document := ⟨file, [], none, none, none, file.length, DEFAULT_CHUNK_SIZE⟩
  if 0 < file.length then
    match d0.loadChunk (file.length - DEFAULT_CHUNK_SIZE) file.length with
    | none => none
    | some (d, _) => if d.last_line.isSome then some d else none
  else some { d0 with last_line := some [] }

/-- Document::last_line_start_offset.  The source asserts last_line is set;
the model reads the empty string when it is not. -/
def Document.lastLineStartOffset (d : Document) : Nat :=
  d.document_size - (d.last_line.getD []).length

/-- Document::load_chunk_around from src/document.rs. -/
def Document.loadChunkAround (d : Document) (offset : Nat) : Option (Document × Option Nat) :=
  d.loadChunk (offset - d.default_chunk_size / 2) (offset + d.default_chunk_size / 2)

/-- Document::get_or_load_chunk_by_offset from src/document.rs.  none models
the unwrap panic when the load produces no chunk. -/
def Document.getOrLoadChunkByOffset (d : Document) (offset : Nat) :
    Option (Document × Chunk) :=
  match d.getChunkIndexByOffset offset with
  | some i =>
    match d.chunks.get? i with
    | some c => some (d, c)
    | none => none
  | none =>
    match d.loadChunkAround offset with
    | none => none
    | some (d', r) =>
      match r with
      | none => none
      | some i =>
        match d'.chunks.get? i with
        | some c => some (d', c)
        | none => none

/-- Document::last_line_without_line_break. -/
def Document.lastLineWithoutLineBreak (d : Document) : Str :=
  let l := d.last_line.getD []
  if l.getLastD ' ' = '\n' then l.dropLast else l

/-- The loop of Document::query_lines.  Each pass takes at least one row, so
line_count + 1 fuel always suffices; running out of fuel models the source
looping without progress on a broken state. -/
def queryLinesGo (fuel : Nat) (d : Document) (offset n : Nat) (acc : List Str) :
    Option (Document × List Str) :=
  match fuel with
  | 0 => none
  | fuel + 1 =>
    if offset < d.lastLineStartOffset ∧ 0 < n then
      match d.getOrLoadChunkByOffset offset with
      | none => none
      | some (d', c) =>
        match c.queryLineIndexExactly offset with
        | none => none
        | some i =>
          let taken := min n (c.rows.length - i)
          queryLinesGo fuel d' c.offset_end (n - taken) (acc ++ (c.rows.drop i).take taken)
    else some (d, acc ++ if 0 < n then [d.lastLineWithoutLineBreak] else [])

/-- Document::query_lines from src/document.rs. -/
def Document.queryLines (d : Document) (offset n : Nat) : Option (Document × List Str) :=
  queryLinesGo (n + 1) d offset n []

/-- The row walk of Document::query_distance_to_next_match: distance to the
first matching row, accumulating len + 1 per non-matching row. -/
def scanRows (rows : List Str) (p : Str) (dist : Nat) : Option Nat :=
  match rows with
  | [] => none
  | r :: rs => if containsStr r p then some dist else scanRows rs p (dist + r.length + 1)

/-- The loop of Document::query_distance_to_next_match.  The offset strictly
increases through chunk ends, so document_size + 1 fuel always suffices. -/
def queryDistGo (fuel : Nat) (d : Document) (offset : Nat) (p : Str) (dist : Nat) :
    Option (Document × Option Nat) :=
  match fuel with
  | 0 => none
  | fuel + 1 =>
    if offset < d.lastLineStartOffset then
      match d.getOrLoadChunkByOffset offset with
      | none => none
      | some (d', c) =>
        match c.queryLineIndexExactly offset with
        | none => none
        | some i =>
          match scanRows (c.rows.drop i) p dist with
          | some dd => some (d', some dd)
          | none => queryDistGo fuel d' c.offset_end p (dist + sumLens (c.rows.drop i))
    else
      match d.last_line with
      | none => none
      | some l => some (d, if containsStr l p then some dist else none)

/-- Document::query_distance_to_next_match from src/document.rs. -/
def Document.queryDistanceToNextMatch (d : Document) (offset : Nat) (p : Str) :
    Option (Document × Option Nat) :=
  queryDistGo (d.document_size + 1) d offset p 0

/-- The sampling loop of load_log_timestamp_format_and_default_date: the first
of the rows with a detectable format fixes the format and the default date
(the source unwraps the re-parse, which succeeds by construction). -/
def detectInRows : List Str → Option (TsFormat × Date)
  | [] => none
  | line :: rest =>
    match detectLogTimstampFormat line with
    | some fmt =>
      match parseAndRemainder line fmt with
      | some (dt, _) => some (fmt, dt.date)
      | none => none
    | none => detectInRows rest

/-- Document::load_log_timestamp_format_and_default_date from src/document.rs,
sampling the first 100 rows of the first chunk.  The source asserts the chunks
are non-empty; its caller guarantees that, and the model leaves the state
unchanged otherwise. -/
def Document.loadLogTimestampFormatAndDefaultDate (d : Document) : Document :=
  match d.chunks with
  | [] => d
  | c0 :: _ =>
    match detectInRows (c0.rows.take 100) with
    | some (fmt, date) =>
      { d with log_timestamp_format := some fmt, log_default_date := some date }
    | none => d

/-- The row walk of Document::linear_search_timestamp: the offset of the first
row whose timestamp is at or past the target, or the final offset after the
rows. -/
def lstRowsScan (rows : List Str) (offset : Nat) (fmt : TsFormat) (target : DateTime) :
    Option Nat × Nat :=
  match rows with
  | [] => (none, offset)
  | r :: rs =>
    match parseAndRemainder r fmt with
    | some (dt, _) =>
      if DateTime.le target dt then (some offset, offset)
      else lstRowsScan rs (offset + r.length + 1) fmt target
    | none => lstRowsScan rs (offset + r.length + 1) fmt target

/-- The chunk loop of Document::linear_search_timestamp; none models the
source's assertion that the walk ends at the chunk's end, or fuel running out
on a broken state. -/
def linearGo (fuel : Nat) (d : Document) (offset offset_end : Nat) (fmt : TsFormat)
    (target : DateTime) : Option (Document × Nat) :=
  match fuel with
  | 0 => none
  | fuel + 1 =>
    if offset < offset_end then
      match d.getOrLoadChunkByOffset offset with
      | none => none
      | some (d', c) =>
        match lstRowsScan c.rows c.offset_begin fmt target with
        | (some found, _) => some (d', found)
        | (none, final) =>
          if final = c.offset_end then linearGo fuel d' final offset_end fmt target
          else none
    else some (d, offset_end)

/-- Document::linear_search_timestamp from src/document.rs; none models the
unwrap of an unset timestamp format. -/
def Document.linearSearchTimestamp (d : Document) (offset_begin offset_end : Nat)
    (target : DateTime) : Option (Document × Nat) :=
  match d.log_timestamp_format with
  | none => none
  | some fmt => linearGo (d.document_size + 2) d offset_begin offset_end fmt target

/-- The binary-search loop of Document::query_offset_by_timestamp: parse the
line at the probe offset, narrow the interval, fall back to the linear scan
once the interval is within DEFAULT_CHUNK_SIZE, and skip to the next line on
a parse failure, giving up when that passes the interval's end. -/
def qotGo (fuel : Nat) (d : Document) (ob oe : Nat) (fmt : TsFormat) (target : DateTime)
    (offset : Nat) : Option (Document × Option Nat) :=
  match fuel with
  | 0 => none
  | fuel + 1 =>
    match d.getOrLoadChunkByOffset offset with
    | none => none
    | some (d', c) =>
      match c.queryLineIndex offset with
      | none => none
      | some index =>
        match c.rows.get? index with
        | none => none
        | some row =>
          match parseAndRemainder row fmt with
          | some (dt, _) =>
            let ob' := if DateTime.le target dt then ob else offset
            let oe' := if DateTime.le target dt then offset else oe
            if ob' + DEFAULT_CHUNK_SIZE ≥ oe' then
              match d'.linearSearchTimestamp ob' oe' target with
              | none => none
              | some (d2, res) => some (d2, some res)
            else qotGo fuel d' ob' oe' fmt target ((ob' + oe') / 2)
          | none =>
            let offset2 := c.queryLineStartOffset (index + 1)
            if offset2 ≥ oe then some (d', none)
            else qotGo fuel d' ob oe fmt target offset2

/-- Document::query_offset_by_timestamp from src/document.rs.  none models the
unwrap of a missing default date; the inner option is the source's result. -/
def Document.queryOffsetByTimestamp (d : Document) (date : Option Date) (time : Time) :
    Option (Document × Option Nat) :=
  if d.chunks.isEmpty then some (d, some 0)
  else
    let d1 := if d.log_timestamp_format.isNone then d.loadLogTimestampFormatAndDefaultDate else d
    match d1.log_timestamp_format with
    | none => some (d1, none)
    | some fmt =>
      match (match date with | some dd => some dd | none => d1.log_default_date) with
      | none => none
      | some dd =>
        let target : DateTime := ⟨dd, time⟩
        let oe := d1.lastLineStartOffset
        qotGo (d1.document_size + 2) d1 0 oe fmt target ((0 + oe) / 2)

/-! ### The document invariant -/

/-- Well-formedness of a chunk with respect to the file: non-empty rows free
of newlines, a line-start begin, an end at or before the last-line region, and
the chunk's slice of the file being exactly its rows, each terminated by its
newline. -/
def chunkWF (f : Str) (c : Chunk) : Prop :=
  c.rows ≠ [] ∧ (∀ r ∈ c.rows, '\n' ∉ r) ∧ isLineStart f c.offset_begin ∧
    c.offset_end ≤ lastLineStart f ∧ slice f c.offset_begin c.offset_end = concatNl c.rows

/-- The part of document well-formedness that load_chunk needs and preserves
even before the last line is first set: the reader is the file, the recorded
size is the file's, the chunks are sorted and non-overlapping, and each chunk
is well-formed. -/
def WFcore (f : Str) (d : Document) : Prop :=
  d.file = f ∧ d.document_size = f.length ∧
    d.chunks.Pairwise (fun a b => a.offset_end ≤ b.offset_begin) ∧
    ∀ c ∈ d.chunks, chunkWF f c

/-- Document well-formedness: the core invariant plus the last line being the
file's final logical line. -/
def WF (f : Str) (d : Document) : Prop :=
  WFcore f d ∧ d.last_line = some (fileLastLine f)

theorem slice_length_eq (s : Str) (a b : Nat) :
    (slice s a b).length = min (b - a) (s.length - a) := by
  simp [slice]

theorem slice_get? (f : Str) (a b q : Nat) (h1 : a ≤ q) (h2 : q < b) :
    (slice f a b).get? (q - a) = f.get? q := by
  unfold slice
  rw [List.get?_take (by omega), List.get?_drop, show a + (q - a) = q by omega]

theorem slice_drop (f : Str) (a b k : Nat) :
    (slice f a b).drop k = slice f (a + k) b := by
  unfold slice
  rw [List.drop_take, List.drop_drop]
  congr 1
  omega

theorem slice_take (f : Str) (a e L : Nat) (h : a + L ≤ e) :
    (slice f a e).take L = slice f a (a + L) := by
  unfold slice
  rw [List.take_take]
  congr 1
  omega

theorem sumLens_pos (rows : List Str) (h : rows ≠ []) : 1 ≤ sumLens rows := by
  cases rows with
  | nil => exact absurd rfl h
  | cons r rs => rw [sumLens_cons]; omega

theorem get?_last_of_getLastD {α : Type} (l : List α) (d : α) (h : l ≠ []) :
    l.get? (l.length - 1) = some (l.getLastD d) := by
  rw [← List.getLast?_eq_get?, List.getLastD_eq_getLast?]
  cases hl : l.getLast? with
  | none => exact absurd (List.getLast?_eq_none_iff.mp hl) h
  | some x => rfl

theorem chunkWF_size (f : Str) (c : Chunk) (h : chunkWF f c) :
    c.offset_end - c.offset_begin = sumLens c.rows ∧ c.offset_begin < c.offset_end := by
  obtain ⟨hne, _, _, hend, hslice⟩ := h
  have hlen := congrArg List.length hslice
  rw [slice_length_eq, concatNl_length] at hlen
  have hpos := sumLens_pos c.rows hne
  have hfle : lastLineStart f ≤ f.length := lastLineStart_le f
  omega

theorem chunkWF_end_nl (f : Str) (c : Chunk) (h : chunkWF f c) :
    f.get? (c.offset_end - 1) = some '\n' := by
  obtain ⟨hsz, hlt⟩ := chunkWF_size f c h
  obtain ⟨hne, _, _, hend, hslice⟩ := h
  have hq : (slice f c.offset_begin c.offset_end).get? (c.offset_end - 1 - c.offset_begin) =
      f.get? (c.offset_end - 1) := slice_get? f _ _ _ (by omega) (by omega)
  rw [hslice] at hq
  rw [← hq]
  have hlast : (concatNl c.rows).get? ((concatNl c.rows).length - 1) =
      some ((concatNl c.rows).getLastD ' ') :=
    get?_last_of_getLastD _ _ (by
      intro hc
      have hc1 := concatNl_length c.rows
      rw [hc] at hc1
      simp only [List.length_nil] at hc1
      have hc2 := sumLens_pos c.rows hne
      omega)
  rw [concatNl_getLastD c.rows hne ' '] at hlast
  rw [← hlast]
  congr 1
  rw [concatNl_length]
  omega

theorem chunkWF_end_lineStart (f : Str) (c : Chunk) (h : chunkWF f c) :
    isLineStart f c.offset_end :=
  Or.inr (chunkWF_end_nl f c h)

theorem WF_lastLineStartOffset (f : Str) (d : Document) (h : WF f d) :
    d.lastLineStartOffset = lastLineStart f := by
  obtain ⟨⟨_, hsize, _, _⟩, hlast⟩ := h
  unfold Document.lastLineStartOffset
  rw [hlast, hsize]
  rfl

theorem gci_some (chunks : List Chunk) (base offset i : Nat)
    (h : getChunkIndexGo chunks base offset = some i) :
    base ≤ i ∧ ∃ c, chunks.get? (i - base) = some c ∧
      c.offset_begin ≤ offset ∧ offset < c.offset_end := by
  induction chunks generalizing base with
  | nil => exact absurd h (by simp [getChunkIndexGo])
  | cons c cs ih =>
    unfold getChunkIndexGo at h
    by_cases h1 : offset ≥ c.offset_end
    · rw [if_pos h1] at h
      obtain ⟨hbi, c', hc', hcov⟩ := ih (base + 1) h
      refine ⟨by omega, c', ?_, hcov⟩
      rw [show i - base = (i - (base + 1)) + 1 by omega]
      simpa using hc'
    · rw [if_neg h1] at h
      by_cases h2 : offset ≥ c.offset_begin
      · rw [if_pos h2] at h
        simp only [Option.some.injEq] at h
        subst h
        exact ⟨le_refl _, c, by simp, h2, by omega⟩
      · rw [if_neg h2] at h
        exact absurd h (by simp)

theorem gci_none (chunks : List Chunk) (base offset : Nat)
    (hpw : chunks.Pairwise fun a b => a.offset_end ≤ b.offset_begin)
    (hlt : ∀ c ∈ chunks, c.offset_begin < c.offset_end)
    (h : getChunkIndexGo chunks base offset = none) :
    ∀ c ∈ chunks, ¬(c.offset_begin ≤ offset ∧ offset < c.offset_end) := by
  induction chunks generalizing base with
  | nil => intro c hc; simp at hc
  | cons c cs ih =>
    unfold getChunkIndexGo at h
    by_cases h1 : offset ≥ c.offset_end
    · rw [if_pos h1] at h
      intro c' hc'
      rcases List.mem_cons.mp hc' with rfl | hmem
      · rintro ⟨_, _⟩; omega
      · exact ih (base + 1) hpw.of_cons (fun c'' h'' => hlt c'' (List.mem_cons_of_mem c h''))
          h c' hmem
    · rw [if_neg h1] at h
      by_cases h2 : offset ≥ c.offset_begin
      · rw [if_pos h2] at h
        exact absurd h (by simp)
      · intro c' hc'
        rcases List.mem_cons.mp hc' with rfl | hmem
        · rintro ⟨hb, _⟩; omega
        · rintro ⟨hb, he⟩
          have hrel := List.rel_of_pairwise_cons hpw hmem
          have := hlt c (List.mem_cons_self c cs)
          omega

theorem slideBeginGo_le (cs : List Chunk) (v : Nat)
    (hpw : cs.Pairwise fun a b => a.offset_end ≤ b.offset_begin)
    (hlt : ∀ c ∈ cs, c.offset_begin < c.offset_end)
    (hv : ∀ c ∈ cs, v ≤ c.offset_begin) : v ≤ slideBeginGo cs v := by
  induction cs generalizing v with
  | nil => simp [slideBeginGo]
  | cons c cs ih =>
    unfold slideBeginGo
    by_cases h1 : v < c.offset_begin
    · rw [if_pos h1]
    · rw [if_neg h1]
      have hrec := ih c.offset_end hpw.of_cons (fun c'' h'' => hlt c'' (List.mem_cons_of_mem c h''))
        (fun c'' h'' => List.rel_of_pairwise_cons hpw h'')
      have h2 := hv c (List.mem_cons_self c cs)
      have h3 := hlt c (List.mem_cons_self c cs)
      omega

theorem slideBeginGo_prop (l : List Chunk) (b : Nat)
    (hpw : l.Pairwise fun a b => a.offset_end ≤ b.offset_begin)
    (hlt : ∀ c ∈ l, c.offset_begin < c.offset_end) :
    ∀ c ∈ l, c.offset_begin ≤ slideBeginGo l b → c.offset_end ≤ slideBeginGo l b := by
  induction l generalizing b with
  | nil => intro c hc; simp at hc
  | cons c cs ih =>
    unfold slideBeginGo
    by_cases h1 : b < c.offset_begin
    · rw [if_pos h1]
      intro c' hc' hble
      rcases List.mem_cons.mp hc' with rfl | hmem
      · omega
      · have hrel := List.rel_of_pairwise_cons hpw hmem
        have := hlt c (List.mem_cons_self c cs)
        omega
    · rw [if_neg h1]
      intro c' hc' hble
      rcases List.mem_cons.mp hc' with rfl | hmem
      · exact slideBeginGo_le cs c'.offset_end hpw.of_cons
          (fun c'' h'' => hlt c'' (List.mem_cons_of_mem c' h''))
          (fun c'' h'' => List.rel_of_pairwise_cons hpw h'')
      · exact ih c.offset_end hpw.of_cons (fun c'' h'' => hlt c'' (List.mem_cons_of_mem c h''))
          c' hmem hble

theorem slideEndGo_ge (cs : List Chunk) (v : Nat)
    (hpwrev : cs.Pairwise fun a b => b.offset_end ≤ a.offset_begin)
    (hlt : ∀ c ∈ cs, c.offset_begin < c.offset_end)
    (hv : ∀ c ∈ cs, c.offset_end ≤ v) : slideEndGo cs v ≤ v := by
  induction cs generalizing v with
  | nil => simp [slideEndGo]
  | cons c cs ih =>
    unfold slideEndGo
    by_cases h1 : v > c.offset_end
    · rw [if_pos h1]
    · rw [if_neg h1]
      have hrec := ih c.offset_begin hpwrev.of_cons
        (fun c'' h'' => hlt c'' (List.mem_cons_of_mem c h''))
        (fun c'' h'' => List.rel_of_pairwise_cons hpwrev h'')
      have h2 := hv c (List.mem_cons_self c cs)
      have h3 := hlt c (List.mem_cons_self c cs)
      omega

theorem slideEndGo_prop (l : List Chunk) (e : Nat)
    (hpwrev : l.Pairwise fun a b => b.offset_end ≤ a.offset_begin)
    (hlt : ∀ c ∈ l, c.offset_begin < c.offset_end) :
    ∀ c ∈ l, c.offset_begin < slideEndGo l e → c.offset_end ≤ slideEndGo l e := by
  induction l generalizing e with
  | nil => intro c hc; simp at hc
  | cons c cs ih =>
    unfold slideEndGo
    by_cases h1 : e > c.offset_end
    · rw [if_pos h1]
      intro c' hc' hblt
      rcases List.mem_cons.mp hc' with rfl | hmem
      · omega
      · have hrel := List.rel_of_pairwise_cons hpwrev hmem
        have := hlt c (List.mem_cons_self c cs)
        omega
    · rw [if_neg h1]
      intro c' hc' hblt
      rcases List.mem_cons.mp hc' with rfl | hmem
      · have hge := slideEndGo_ge cs c'.offset_begin hpwrev.of_cons
          (fun c'' h'' => hlt c'' (List.mem_cons_of_mem c' h''))
          (fun c'' h'' => List.rel_of_pairwise_cons hpwrev h'')
        omega
      · exact ih c.offset_begin hpwrev.of_cons
          (fun c'' h'' => hlt c'' (List.mem_cons_of_mem c h'')) c' hmem hblt

theorem get?_drop_cons {α : Type} (l : List α) (k : Nat) (x : α) (h : l.get? k = some x) :
    l.drop k = x :: l.drop (k + 1) := by
  induction l generalizing k with
  | nil => simp at h
  | cons a l ih =>
    cases k with
    | zero =>
      injection h with h
      subst h
      rfl
    | succ k => exact ih k h

theorem get?_take_concat {α : Type} (l : List α) (k : Nat) (x : α) (h : l.get? k = some x) :
    l.take (k + 1) = l.take k ++ [x] := by
  rw [List.take_succ, ← List.get?_eq_getElem?, h]
  rfl

theorem get?_split {α : Type} (l : List α) (k : Nat) (x : α) (h : l.get? k = some x) :
    l = l.take k ++ x :: l.drop (k + 1) := by
  conv_lhs => rw [← List.take_append_drop k l]
  rw [get?_drop_cons l k x h]

theorem slideBegin_prop (chunks : List Chunk) (b : Nat)
    (hpw : chunks.Pairwise fun a b => a.offset_end ≤ b.offset_begin)
    (hlt : ∀ c ∈ chunks, c.offset_begin < c.offset_end) :
    ∀ c ∈ chunks, c.offset_begin ≤ slideBegin chunks b → c.offset_end ≤ slideBegin chunks b := by
  cases hg : getChunkIndexGo chunks 0 b with
  | none =>
    have hsb : slideBegin chunks b = b := by
      unfold slideBegin
      rw [hg]
    rw [hsb]
    intro c hc hble
    have hnc := gci_none chunks 0 b hpw hlt hg c hc
    by_contra hgt
    exact hnc ⟨hble, by omega⟩
  | some k =>
    have hsb : slideBegin chunks b = slideBeginGo (chunks.drop k) b := by
      unfold slideBegin
      rw [hg]
    rw [hsb]
    obtain ⟨_, ck, hck, hcov⟩ := gci_some chunks 0 b k hg
    rw [Nat.sub_zero] at hck
    have hdrop : chunks.drop k = ck :: chunks.drop (k + 1) := get?_drop_cons _ _ _ hck
    have hsplit : chunks = chunks.take k ++ ck :: chunks.drop (k + 1) := get?_split _ _ _ hck
    have hpw2 := hsplit ▸ hpw
    rw [List.pairwise_append] at hpw2
    obtain ⟨hpwT, hpwC, hrelTC⟩ := hpw2
    rw [List.pairwise_cons] at hpwC
    obtain ⟨hrelCk, hpwD⟩ := hpwC
    have hstep : slideBeginGo (chunks.drop k) b = slideBeginGo (chunks.drop (k + 1)) ck.offset_end := by
      rw [hdrop]
      simp only [slideBeginGo]
      rw [if_neg (by omega)]
    have hmemD : ∀ c ∈ chunks.drop (k + 1), c ∈ chunks := fun c hc =>
      List.mem_of_mem_drop hc
    have hge : ck.offset_end ≤ slideBeginGo (chunks.drop (k + 1)) ck.offset_end :=
      slideBeginGo_le _ _ hpwD (fun c'' h'' => hlt c'' (hmemD c'' h'')) hrelCk
    intro c hc hble
    rw [hstep] at hble ⊢
    have hcmem : c ∈ chunks.take k ∨ c = ck ∨ c ∈ chunks.drop (k + 1) := by
      have := hsplit ▸ hc
      rcases List.mem_append.mp this with h1 | h1
      · exact Or.inl h1
      · rcases List.mem_cons.mp h1 with h2 | h2
        · exact Or.inr (Or.inl h2)
        · exact Or.inr (Or.inr h2)
    rcases hcmem with hmem | rfl | hmem
    · have h1 := hrelTC c hmem ck (List.mem_cons_self _ _)
      have h2 := hlt ck (by rw [hsplit]; simp)
      omega
    · exact hge
    · exact slideBeginGo_prop _ ck.offset_end hpwD
        (fun c'' h'' => hlt c'' (hmemD c'' h'')) c hmem hble

theorem slideEnd_facts (chunks : List Chunk) (e : Nat)
    (hpw : chunks.Pairwise fun a b => a.offset_end ≤ b.offset_begin)
    (hlt : ∀ c ∈ chunks, c.offset_begin < c.offset_end) :
    slideEnd chunks e ≤ e ∧
    ∀ c ∈ chunks, c.offset_begin < slideEnd chunks e → c.offset_end ≤ slideEnd chunks e := by
  cases hg : getChunkIndexGo chunks 0 e with
  | none =>
    have hse : slideEnd chunks e = e := by
      unfold slideEnd
      rw [hg]
    rw [hse]
    refine ⟨le_refl e, ?_⟩
    intro c hc hblt
    have hnc := gci_none chunks 0 e hpw hlt hg c hc
    by_contra hgt
    exact hnc ⟨by omega, by omega⟩
  | some k =>
    have hse : slideEnd chunks e = slideEndGo ((chunks.take (k + 1)).reverse) e := by
      unfold slideEnd
      rw [hg]
    rw [hse]
    obtain ⟨_, ck, hck, hcov⟩ := gci_some chunks 0 e k hg
    rw [Nat.sub_zero] at hck
    have htake : chunks.take (k + 1) = chunks.take k ++ [ck] := get?_take_concat _ _ _ hck
    have hsplit : chunks = chunks.take k ++ ck :: chunks.drop (k + 1) := get?_split _ _ _ hck
    have hpw2 := hsplit ▸ hpw
    rw [List.pairwise_append] at hpw2
    obtain ⟨hpwT, hpwC, hrelTC⟩ := hpw2
    rw [List.pairwise_cons] at hpwC
    obtain ⟨hrelCk, hpwD⟩ := hpwC
    have hrev : (chunks.take (k + 1)).reverse = ck :: (chunks.take k).reverse := by
      rw [htake]
      simp
    have hpwTrev : (chunks.take k).reverse.Pairwise fun a b => b.offset_end ≤ a.offset_begin := by
      rw [List.pairwise_reverse]
      exact hpwT
    have hmemT : ∀ c ∈ (chunks.take k).reverse, c ∈ chunks := fun c hc => by
      rw [List.mem_reverse] at hc
      exact List.mem_of_mem_take hc
    have hvT : ∀ c ∈ (chunks.take k).reverse, c.offset_end ≤ ck.offset_begin := fun c hc => by
      rw [List.mem_reverse] at hc
      exact hrelTC c hc ck (List.mem_cons_self _ _)
    have hstep : slideEndGo ((chunks.take (k + 1)).reverse) e =
        slideEndGo ((chunks.take k).reverse) ck.offset_begin := by
      rw [hrev]
      simp only [slideEndGo]
      rw [if_neg (by omega)]
    have hge : slideEndGo ((chunks.take k).reverse) ck.offset_begin ≤ ck.offset_begin :=
      slideEndGo_ge _ _ hpwTrev (fun c'' h'' => hlt c'' (hmemT c'' h'')) hvT
    constructor
    · rw [hstep]
      omega
    · intro c hc hblt
      rw [hstep] at hblt ⊢
      have hcmem : c ∈ chunks.take k ∨ c = ck ∨ c ∈ chunks.drop (k + 1) := by
        have := hsplit ▸ hc
        rcases List.mem_append.mp this with h1 | h1
        · exact Or.inl h1
        · rcases List.mem_cons.mp h1 with h2 | h2
          · exact Or.inr (Or.inl h2)
          · exact Or.inr (Or.inr h2)
      rcases hcmem with hmem | rfl | hmem
      · exact slideEndGo_prop _ ck.offset_begin hpwTrev
          (fun c'' h'' => hlt c'' (hmemT c'' h'')) c (by rw [List.mem_reverse]; exact hmem) hblt
      · omega
      · have h1 := hrelCk c hmem
        have h2 := hlt ck (by rw [hsplit]; simp)
        omega

theorem take_takeWhile_length {α : Type} (p : α → Bool) (l : List α) :
    l.take (l.takeWhile p).length = l.takeWhile p := by
  induction l with
  | nil => rfl
  | cons a l ih =>
    by_cases h : p a
    · rw [List.takeWhile_cons, if_pos h]
      simpa using ih
    · rw [List.takeWhile_cons, if_neg h]
      rfl

theorem drop_takeWhile_length {α : Type} (p : α → Bool) (l : List α) :
    l.drop (l.takeWhile p).length = l.dropWhile p := by
  calc l.drop (l.takeWhile p).length
      = (l.takeWhile p ++ l.dropWhile p).drop (l.takeWhile p).length := by
        rw [List.takeWhile_append_dropWhile]
    _ = l.dropWhile p := List.drop_left _ _

theorem takeWhile_eq_nil_of_all {α : Type} (p : α → Bool) (l : List α)
    (h : ∀ x ∈ l, ¬p x) : l.takeWhile p = [] := by
  cases l with
  | nil => rfl
  | cons a l =>
    rw [List.takeWhile_cons, if_neg (h a (List.mem_cons_self a l))]

theorem removeUntilGo_eq (cs : List Chunk) (newE : Nat)
    (hpw : cs.Pairwise fun a b => a.offset_end ≤ b.offset_begin)
    (hlt : ∀ c ∈ cs, c.offset_begin < c.offset_end) :
    ∀ idx acc, removeUntilGo cs idx acc newE =
      if (cs.takeWhile fun c => decide (c.offset_end ≤ newE)).length = 0 then acc
      else idx + (cs.takeWhile fun c => decide (c.offset_end ≤ newE)).length := by
  induction cs with
  | nil => intro idx acc; rfl
  | cons c cs ih =>
    intro idx acc
    unfold removeUntilGo
    by_cases hc : c.offset_end ≤ newE
    · rw [if_pos hc]
      rw [ih hpw.of_cons (fun c' h' => hlt c' (List.mem_cons_of_mem c h')) (idx + 1) (idx + 1)]
      rw [List.takeWhile_cons_of_pos (by simpa using hc)]
      by_cases h0 : (cs.takeWhile fun c => decide (c.offset_end ≤ newE)).length = 0
      · rw [if_pos h0, if_neg (by simp)]
        simp only [List.length_cons]
        omega
      · rw [if_neg h0, if_neg (by simp)]
        simp only [List.length_cons]
        omega
    · rw [if_neg hc]
      have hall : ∀ c' ∈ cs, ¬(decide (c'.offset_end ≤ newE) = true) := by
        intro c' hc'
        have h1 := List.rel_of_pairwise_cons hpw hc'
        have h2 := hlt c' (List.mem_cons_of_mem c hc')
        simp only [decide_eq_true_eq]
        omega
      have htw : (cs.takeWhile fun c => decide (c.offset_end ≤ newE)) = [] :=
        takeWhile_eq_nil_of_all _ cs hall
      rw [ih hpw.of_cons (fun c' h' => hlt c' (List.mem_cons_of_mem c h')) (idx + 1) acc]
      rw [htw, List.takeWhile_cons_of_neg (by simpa using hc)]
      simp

theorem dropWhile_end_gt (cs : List Chunk) (newE : Nat)
    (hpw : cs.Pairwise fun a b => a.offset_end ≤ b.offset_begin)
    (hlt : ∀ c ∈ cs, c.offset_begin < c.offset_end) :
    ∀ c ∈ cs.dropWhile fun c => decide (c.offset_end ≤ newE), newE < c.offset_end := by
  induction cs with
  | nil => intro c hc; simp at hc
  | cons a cs ih =>
    by_cases ha : a.offset_end ≤ newE
    · rw [List.dropWhile_cons_of_pos (by simpa using ha)]
      exact ih hpw.of_cons (fun c' h' => hlt c' (List.mem_cons_of_mem a h'))
    · rw [List.dropWhile_cons_of_neg (by simpa using ha)]
      intro c hc
      rcases List.mem_cons.mp hc with rfl | hmem
      · omega
      · have h1 := List.rel_of_pairwise_cons hpw hmem
        have h2 := hlt c (List.mem_cons_of_mem a hmem)
        omega

theorem dropWhile_begin_ge (cs : List Chunk) (B : Nat)
    (hpw : cs.Pairwise fun a b => a.offset_end ≤ b.offset_begin)
    (hlt : ∀ c ∈ cs, c.offset_begin < c.offset_end) :
    ∀ c ∈ cs.dropWhile fun c => decide (c.offset_begin < B), B ≤ c.offset_begin := by
  induction cs with
  | nil => intro c hc; simp at hc
  | cons a cs ih =>
    by_cases ha : a.offset_begin < B
    · rw [List.dropWhile_cons_of_pos (by simpa using ha)]
      exact ih hpw.of_cons (fun c' h' => hlt c' (List.mem_cons_of_mem a h'))
    · rw [List.dropWhile_cons_of_neg (by simpa using ha)]
      intro c hc
      rcases List.mem_cons.mp hc with rfl | hmem
      · omega
      · have h1 := List.rel_of_pairwise_cons hpw hmem
        have h2 := hlt a (List.mem_cons_self a cs)
        omega

theorem getLastD_drop {α : Type} (l : List α) (k : Nat) (d : α)
    (h : l.drop k ≠ []) : (l.drop k).getLastD d = l.getLastD d := by
  have hk : k < l.length := by
    by_contra hk
    exact h (List.drop_eq_nil_of_le (by omega))
  have h1 := get?_last_of_getLastD (l.drop k) d h
  rw [List.get?_drop, List.length_drop] at h1
  have h2 := get?_last_of_getLastD l d (by
    intro hl
    rw [hl] at hk
    simp at hk)
  rw [show k + (l.length - k - 1) = l.length - 1 by omega] at h1
  rw [h1] at h2
  exact (Option.some.injEq _ _).mp h2

theorem dropLast_concat_getLastD {α : Type} (l : List α) (d : α) (h : l ≠ []) :
    l.dropLast ++ [l.getLastD d] = l := by
  have h1 := List.dropLast_append_getLast h
  rw [List.getLastD_eq_getLast?, List.getLast?_eq_getLast l h]
  simpa using h1

theorem dropLast_append_ne_nil {α : Type} (x y : List α) (h : y ≠ []) :
    (x ++ y).dropLast = x ++ y.dropLast := by
  induction x with
  | nil => rfl
  | cons a x ih =>
    rw [List.cons_append, List.dropLast_cons_of_ne_nil (by
      intro hc
      exact h (List.append_eq_nil.mp hc).2), ih, List.cons_append]

theorem sumLens_take_lt (rows : List Str) (i : Nat) (h : i < rows.length) :
    sumLens (rows.take i) < sumLens rows := by
  conv_rhs => rw [← List.take_append_drop i rows]
  rw [sumLens_append]
  have hne : rows.drop i ≠ [] := by
    intro hc
    have := congrArg List.length hc
    rw [List.length_drop] at this
    simp at this
    omega
  have := sumLens_pos _ hne
  omega

theorem sumLens_eq_sum_add (rows : List Str) :
    sumLens rows = (rows.map List.length).sum + rows.length := by
  induction rows with
  | nil => rfl
  | cons r rows ih =>
    rw [sumLens_cons, ih]
    simp only [List.map_cons, List.sum_cons, List.length_cons]
    omega

theorem concatNl_drop (rows : List Str) (i : Nat) :
    (concatNl rows).drop (sumLens (rows.take i)) = concatNl (rows.drop i) := by
  have h : concatNl rows = concatNl (rows.take i) ++ concatNl (rows.drop i) := by
    rw [← concatNl_append, List.take_append_drop]
  rw [h, ← concatNl_length (rows.take i), List.drop_left]

theorem firstNlIdx_spec (s : Str) (j : Nat) (h : firstNlIdx s = some j) :
    j < s.length ∧ s.get? j = some '\n' ∧ ∀ i, i < j → s.get? i ≠ some '\n' := by
  induction s generalizing j with
  | nil => exact absurd h (by simp [firstNlIdx])
  | cons c cs ih =>
    unfold firstNlIdx at h
    by_cases hc : c = '\n'
    · rw [if_pos hc] at h
      simp only [Option.some.injEq] at h
      subst h
      exact ⟨by simp, by simp [hc], fun i hi => absurd hi (by omega)⟩
    · rw [if_neg hc] at h
      cases hf : firstNlIdx cs with
      | none => rw [hf] at h; exact absurd h (by simp)
      | some j' =>
        rw [hf] at h
        simp only [Option.map_some', Option.some.injEq] at h
        subst h
        obtain ⟨h1, h2, h3⟩ := ih j' hf
        refine ⟨by simp; omega, by simpa using h2, ?_⟩
        intro i hi
        cases i with
        | zero =>
          simp only [List.get?_cons_zero]
          intro hcon
          exact hc ((Option.some.injEq _ _).mp hcon)
        | succ i' =>
          simp only [List.get?_cons_succ]
          exact h3 i' (by omega)

theorem buildChunk_spec (content : Str) (co : Nat) (df dl : Bool) (ch : Chunk)
    (h : buildChunk content co df dl = some ch) :
    ∃ cur0,
      (df = true → ∃ j, firstNlIdx content = some j ∧ cur0 = j + 1) ∧
      (df = false → cur0 = 0) ∧
      ch.offset_begin = co + cur0 ∧
      (∀ r ∈ ch.rows, '\n' ∉ r) ∧
      ((dl = false ∧ (splitLines (content.drop cur0)).getLastD [] ≠ [] ∧
         ch.rows = (splitLines (content.drop cur0)).dropLast ++
           [(splitLines (content.drop cur0)).getLastD []] ∧
         ch.offset_end = co + content.length) ∨
       ((dl = true ∨ (splitLines (content.drop cur0)).getLastD [] = []) ∧
         ch.rows = (splitLines (content.drop cur0)).dropLast ∧
         ch.offset_end = co + (cur0 + sumLens ch.rows))) := by
  unfold buildChunk at h
  cases df with
  | false =>
    rw [if_neg (by simp)] at h
    dsimp only at h
    refine ⟨0, by simp, fun _ => rfl, ?_⟩
    by_cases hcond : (!dl && decide ((splitLines (content.drop 0)).getLastD [] ≠ [])) = true
    · rw [if_pos hcond] at h
      simp only [Option.some.injEq] at h
      subst h
      simp only [Bool.and_eq_true, Bool.not_eq_true', decide_eq_true_eq] at hcond
      refine ⟨rfl, ?_, Or.inl ⟨hcond.1, hcond.2, rfl, rfl⟩⟩
      intro r hr
      rcases List.mem_append.mp hr with h1 | h1
      · exact splitLines_pieces_no_nl _ r ((List.dropLast_sublist _).subset h1)
      · rw [List.mem_singleton] at h1
        subst h1
        exact splitLines_last_no_nl _
    · rw [if_neg hcond] at h
      simp only [Option.some.injEq] at h
      subst h
      simp only [Bool.and_eq_true, Bool.not_eq_true', decide_eq_true_eq, not_and, Decidable.not_not] at hcond
      refine ⟨rfl, ?_, Or.inr ⟨?_, rfl, rfl⟩⟩
      · intro r hr
        exact splitLines_pieces_no_nl _ r ((List.dropLast_sublist _).subset hr)
      · cases dl with
        | false => exact Or.inr (hcond rfl)
        | true => exact Or.inl rfl
  | true =>
    rw [if_pos rfl] at h
    cases hf : firstNlIdx content with
    | none => rw [hf] at h; exact absurd h (by simp)
    | some j =>
      rw [hf] at h
      simp only [Option.map_some'] at h
      refine ⟨j + 1, fun _ => ⟨j, rfl, rfl⟩, by simp, ?_⟩
      by_cases hcond : (!dl && decide ((splitLines (content.drop (j + 1))).getLastD [] ≠ [])) = true
      · rw [if_pos hcond] at h
        simp only [Option.some.injEq] at h
        subst h
        simp only [Bool.and_eq_true, Bool.not_eq_true', decide_eq_true_eq] at hcond
        refine ⟨rfl, ?_, Or.inl ⟨hcond.1, hcond.2, rfl, rfl⟩⟩
        intro r hr
        rcases List.mem_append.mp hr with h1 | h1
        · exact splitLines_pieces_no_nl _ r ((List.dropLast_sublist _).subset h1)
        · rw [List.mem_singleton] at h1
          subst h1
          exact splitLines_last_no_nl _
      · rw [if_neg hcond] at h
        simp only [Option.some.injEq] at h
        subst h
        simp only [Bool.and_eq_true, Bool.not_eq_true', decide_eq_true_eq, not_and, Decidable.not_not] at hcond
        refine ⟨rfl, ?_, Or.inr ⟨?_, rfl, rfl⟩⟩
        · intro r hr
          exact splitLines_pieces_no_nl _ r ((List.dropLast_sublist _).subset hr)
        · cases dl with
          | false => exact Or.inr (hcond rfl)
          | true => exact Or.inl rfl

theorem endsNl_concat (s : Str) (h0 : s ≠ []) (h : s.getLastD ' ' = '\n') :
    ∃ R, (∀ r ∈ R, '\n' ∉ r) ∧ s = concatNl R := by
  have hlp := (endsNl_iff s h0).mp h
  have hj := splitLines_join s
  rw [hlp, List.append_nil] at hj
  exact ⟨(splitLines s).dropLast,
    fun r hr => splitLines_pieces_no_nl s r ((List.dropLast_sublist _).subset hr), hj.symm⟩

theorem lineStart_take_concat (f : Str) (B : Nat) (hB : isLineStart f B)
    (hle : B ≤ f.length) :
    ∃ R, (∀ r ∈ R, '\n' ∉ r) ∧ f.take B = concatNl R := by
  by_cases h0 : B = 0
  · exact ⟨[], by simp, by simp [h0, concatNl_nil]⟩
  rcases hB with h0' | hnl
  · exact absurd h0' h0
  have hsl : (f.take B).length = B := by
    rw [List.length_take]
    omega
  have hsne : f.take B ≠ [] := by
    intro hc
    have := congrArg List.length hc
    rw [hsl] at this
    simp at this
    exact h0 this
  have hlast : (f.take B).getLastD ' ' = '\n' := by
    have h1 := get?_last_of_getLastD (f.take B) ' ' hsne
    rw [hsl, List.get?_take (by omega)] at h1
    rw [hnl] at h1
    exact ((Option.some.injEq _ _).mp h1).symm
  obtain ⟨R, hR, hs⟩ := endsNl_concat (f.take B) hsne hlast
  exact ⟨R, hR, hs⟩

theorem finishInsert_main (f : Str) (d : Document) (ch : Chunk)
    (hwf : WFcore f d)
    (hch : ch.rows ≠ [] → chunkWF f ch)
    (hA : ∀ c ∈ d.chunks, c.offset_begin < ch.offset_begin → c.offset_end ≤ ch.offset_begin)
    (hB : ∀ c ∈ d.chunks, ch.offset_end < c.offset_end → ch.offset_end ≤ c.offset_begin) :
    WFcore f (finishInsert d ch).1 ∧
      (finishInsert d ch).1.last_line = d.last_line ∧
      ∀ q, (∃ c ∈ d.chunks, c.offset_begin ≤ q ∧ q < c.offset_end) →
        ∃ c ∈ (finishInsert d ch).1.chunks, c.offset_begin ≤ q ∧ q < c.offset_end := by
  obtain ⟨hfile, hsize, hpw, hcwf⟩ := hwf
  unfold finishInsert
  by_cases hr0 : ch.rows = []
  · rw [if_pos hr0]
    exact ⟨⟨hfile, hsize, hpw, hcwf⟩, rfl, fun q hq => hq⟩
  rw [if_neg hr0]
  dsimp only
  have hchwf := hch hr0
  have hlt : ∀ c ∈ d.chunks, c.offset_begin < c.offset_end :=
    fun c hc => (chunkWF_size f c (hcwf c hc)).2
  have hchlt : ch.offset_begin < ch.offset_end := (chunkWF_size f ch hchwf).2
  have htake : d.chunks.take (insertPos d.chunks ch.offset_begin) =
      d.chunks.takeWhile fun c => decide (c.offset_begin < ch.offset_begin) :=
    take_takeWhile_length _ _
  have hdropi : d.chunks.drop (insertPos d.chunks ch.offset_begin) =
      d.chunks.dropWhile fun c => decide (c.offset_begin < ch.offset_begin) :=
    drop_takeWhile_length _ _
  have hpwdi : (d.chunks.drop (insertPos d.chunks ch.offset_begin)).Pairwise
      (fun a b => a.offset_end ≤ b.offset_begin) := hpw.sublist (List.drop_sublist _ _)
  have hltdi : ∀ c ∈ d.chunks.drop (insertPos d.chunks ch.offset_begin),
      c.offset_begin < c.offset_end := fun c hc => hlt c (List.mem_of_mem_drop hc)
  have hr_eq : removeUntil d.chunks (insertPos d.chunks ch.offset_begin) ch.offset_end =
      insertPos d.chunks ch.offset_begin +
        ((d.chunks.drop (insertPos d.chunks ch.offset_begin)).takeWhile
          fun c => decide (c.offset_end ≤ ch.offset_end)).length := by
    unfold removeUntil
    rw [removeUntilGo_eq _ _ hpwdi hltdi]
    by_cases h0 : ((d.chunks.drop (insertPos d.chunks ch.offset_begin)).takeWhile
        fun c => decide (c.offset_end ≤ ch.offset_end)).length = 0
    · rw [if_pos h0, h0]
      omega
    · rw [if_neg h0]
  have hdropr : d.chunks.drop
        (removeUntil d.chunks (insertPos d.chunks ch.offset_begin) ch.offset_end) =
      (d.chunks.drop (insertPos d.chunks ch.offset_begin)).dropWhile
        fun c => decide (c.offset_end ≤ ch.offset_end) := by
    rw [hr_eq]
    have h2 := drop_takeWhile_length (fun c => decide (c.offset_end ≤ ch.offset_end))
      (d.chunks.drop (insertPos d.chunks ch.offset_begin))
    rw [List.drop_drop] at h2
    exact h2
  have hcovdrop : ∀ c ∈ d.chunks.drop
        (removeUntil d.chunks (insertPos d.chunks ch.offset_begin) ch.offset_end),
      ch.offset_end ≤ c.offset_begin := by
    intro c hc
    rw [hdropr] at hc
    have h1 := dropWhile_end_gt _ ch.offset_end hpwdi hltdi c hc
    exact hB c (List.mem_of_mem_drop (hdropr ▸ hc)) h1
  have htakerel : ∀ a ∈ d.chunks.take (insertPos d.chunks ch.offset_begin),
      a.offset_end ≤ ch.offset_begin := by
    intro a ha
    rw [htake] at ha
    have h1 := List.mem_takeWhile_imp ha
    simp only [decide_eq_true_eq] at h1
    exact hA a (List.mem_of_mem_take (htake ▸ ha)) h1
  refine ⟨⟨hfile, hsize, ?_, ?_⟩, rfl, ?_⟩
  · rw [List.pairwise_append]
    refine ⟨hpw.sublist (List.take_sublist _ _), ?_, ?_⟩
    · rw [List.pairwise_cons]
      exact ⟨hcovdrop, hpw.sublist (List.drop_sublist _ _)⟩
    · intro a ha b hb
      rcases List.mem_cons.mp hb with rfl | hbmem
      · exact htakerel a ha
      · have h1 := htakerel a ha
        have h2 := hcovdrop b hbmem
        omega
  · intro c hc
    rcases List.mem_append.mp hc with h1 | h1
    · exact hcwf c (List.mem_of_mem_take h1)
    · rcases List.mem_cons.mp h1 with rfl | h2
      · exact hchwf
      · exact hcwf c (List.mem_of_mem_drop h2)
  · rintro q ⟨c, hc, hq1, hq2⟩
    have hsplit : c ∈ d.chunks.take (insertPos d.chunks ch.offset_begin) ++
        d.chunks.drop (insertPos d.chunks ch.offset_begin) := by
      rw [List.take_append_drop]
      exact hc
    rcases List.mem_append.mp hsplit with h1 | h1
    · exact ⟨c, List.mem_append_left _ h1, hq1, hq2⟩
    · have hsplit2 : c ∈ ((d.chunks.drop (insertPos d.chunks ch.offset_begin)).takeWhile
          fun c => decide (c.offset_end ≤ ch.offset_end)) ++
          ((d.chunks.drop (insertPos d.chunks ch.offset_begin)).dropWhile
          fun c => decide (c.offset_end ≤ ch.offset_end)) := by
        rw [List.takeWhile_append_dropWhile]
        exact h1
      rcases List.mem_append.mp hsplit2 with h2 | h2
      · have hce : c.offset_end ≤ ch.offset_end := by
          have := List.mem_takeWhile_imp h2
          simpa using this
        have hcb : ch.offset_begin ≤ c.offset_begin := by
          rw [hdropi] at h1
          exact dropWhile_begin_ge _ ch.offset_begin hpw hlt c h1
        exact ⟨ch, List.mem_append_right _ (List.mem_cons_self _ _), by omega, by omega⟩
      · rw [← hdropr] at h2
        exact ⟨c, List.mem_append_right _ (List.mem_cons_of_mem _ h2), hq1, hq2⟩

theorem fileLastLine_of_decomp_ne (f : Str) (rows : List Str) (L : Str)
    (hrows : ∀ r ∈ rows, '\n' ∉ r) (hL : '\n' ∉ L) (hLne : L ≠ [])
    (hf : f = concatNl rows ++ L) : fileLastLine f = L := by
  have hfne : f ≠ [] := by
    rw [hf]
    intro hc
    exact hLne (List.append_eq_nil.mp hc).2
  have hsp : splitLines f = rows ++ [L] := by
    rw [hf, splitLines_concatNl_append rows L hrows, splitLines_no_nl L hL]
  unfold fileLastLine
  rw [if_neg hfne, hsp, getLastD_concat]
  rw [if_neg hLne]

theorem fileLastLine_of_decomp_nl (f : Str) (rows : List Str) (M : Str)
    (hrows : ∀ r ∈ rows, '\n' ∉ r) (hM : '\n' ∉ M)
    (hf : f = concatNl rows ++ (M ++ ['\n'])) : fileLastLine f = M ++ ['\n'] := by
  have hfne : f ≠ [] := by
    rw [hf]
    intro hc
    have := (List.append_eq_nil.mp hc).2
    simp at this
  have hcm : concatNl rows ++ (M ++ ['\n']) = concatNl (rows ++ [M]) := by
    rw [concatNl_append, concatNl_cons, concatNl_nil]
  have hsp : splitLines f = (rows ++ [M]) ++ [[]] := by
    rw [hf, hcm]
    have h1 := splitLines_concatNl_append (rows ++ [M]) []
      (by
        intro r hr
        rcases List.mem_append.mp hr with h2 | h2
        · exact hrows r h2
        · rw [List.mem_singleton] at h2
          subst h2
          exact hM)
    rw [List.append_nil] at h1
    rw [h1]
    rfl
  unfold fileLastLine
  rw [if_neg hfne, hsp, getLastD_concat]
  rw [if_pos rfl, List.dropLast_concat, getLastD_concat]

theorem slice_to_end (f : Str) (a : Nat) : slice f a f.length = f.drop a := by
  unfold slice
  rw [← List.length_drop a f]
  exact List.take_length _

theorem loadChunk_main (f : Str) (d : Document) (ob oe : Nat) (d' : Document)
    (res : Option Nat) (hwf : WFcore f d) (h : d.loadChunk ob oe = some (d', res)) :
    WFcore f d' ∧
      (d'.last_line = d.last_line ∨ d'.last_line = some (fileLastLine f)) ∧
      ∀ q, (∃ c ∈ d.chunks, c.offset_begin ≤ q ∧ q < c.offset_end) →
        ∃ c ∈ d'.chunks, c.offset_begin ≤ q ∧ q < c.offset_end := by
  obtain ⟨hfile, hsize, hpw, hcwf⟩ := hwf
  have hlt : ∀ c ∈ d.chunks, c.offset_begin < c.offset_end :=
    fun c hc => (chunkWF_size f c (hcwf c hc)).2
  unfold Document.loadChunk at h
  dsimp only at h
  rw [hfile, hsize] at h
  by_cases h1 : ob < min oe f.length
  case neg =>
    rw [if_neg h1] at h
    exact absurd h (by simp)
  rw [if_pos h1] at h
  set b := slideBegin d.chunks ob with hb
  set e := slideEnd d.chunks (min oe f.length) with he
  clear_value b e
  have hb_prop := slideBegin_prop d.chunks ob hpw hlt
  rw [← hb] at hb_prop
  have he_facts := slideEnd_facts d.chunks (min oe f.length) hpw hlt
  rw [← he] at he_facts
  obtain ⟨he1, he_prop⟩ := he_facts
  have hef : e ≤ f.length := by omega
  by_cases h2 : b ≥ e
  · rw [if_pos h2] at h
    simp only [Option.some.injEq, Prod.mk.injEq] at h
    obtain ⟨hd, -⟩ := h
    subst hd
    exact ⟨⟨hfile, hsize, hpw, hcwf⟩, Or.inl rfl, fun q hq => hq⟩
  rw [if_neg h2] at h
  set content := slice f (b - 1) e with hcontent
  clear_value content
  by_cases h3 : content.length = 0
  · rw [if_pos h3] at h
    exact absurd h (by simp)
  rw [if_neg h3] at h
  have hcl : content.length = e - (b - 1) := by
    rw [hcontent, slice_length_eq]
    omega
  cases hbc : buildChunk content (b - 1) (decide (b - 1 > 0)) (!decide (e ≥ f.length)) with
  | none =>
    rw [hbc] at h
    exact absurd h (by simp)
  | some ch =>
  rw [hbc] at h
  dsimp only at h
  obtain ⟨cur0, hdfT, hdfF, hbeg, hnl, hbr⟩ := buildChunk_spec _ _ _ _ _ hbc
  have hcur0 : (b - 1 > 0 ∧ ∃ j, firstNlIdx content = some j ∧ cur0 = j + 1 ∧
      j < content.length ∧ content.get? j = some '\n' ∧
      ∀ i, i < j → content.get? i ≠ some '\n') ∨ (¬b - 1 > 0 ∧ cur0 = 0) := by
    by_cases hb1 : b - 1 > 0
    · obtain ⟨j, hj, hc0⟩ := hdfT (decide_eq_true hb1)
      obtain ⟨hj1, hj2, hj3⟩ := firstNlIdx_spec content j hj
      exact Or.inl ⟨hb1, j, hj, hc0, hj1, hj2, hj3⟩
    · exact Or.inr ⟨hb1, hdfF (decide_eq_false hb1)⟩
  clear hdfT hdfF
  have hcur0_le : cur0 ≤ content.length := by
    rcases hcur0 with ⟨-, j, -, hc0, hj1, -, -⟩ | ⟨-, hc0⟩ <;> omega
  set B := b - 1 + cur0 with hB
  clear_value B
  have hB_ls : isLineStart f B := by
    rcases hcur0 with ⟨hb1, j, hj, hc0, hj1, hj2, hj3⟩ | ⟨hb1, hc0⟩
    · right
      have hsg := slice_get? f (b - 1) e (b - 1 + j) (by omega) (by omega)
      rw [show b - 1 + j - (b - 1) = j by omega] at hsg
      rw [← hcontent] at hsg
      rw [hj2] at hsg
      rw [show B - 1 = b - 1 + j by omega]
      exact hsg.symm
    · left
      omega
  have haA : ∀ c ∈ d.chunks, c.offset_begin < B → c.offset_end ≤ B := by
    intro c hc hclt
    rcases hcur0 with ⟨hb1, j, hj, hc0, hj1, hj2, hj3⟩ | ⟨hb1, hc0⟩
    · by_cases hcb : c.offset_begin ≤ b
      · have := hb_prop c hc hcb
        omega
      · rcases (hcwf c hc).2.2.1 with hc00 | hcnl
        · omega
        · have hsg := slice_get? f (b - 1) e (c.offset_begin - 1) (by omega) (by omega)
          rw [← hcontent] at hsg
          rw [hcnl] at hsg
          exact absurd hsg (hj3 _ (by omega))
    · omega
  clear hcur0
  have hBe : B ≤ e := by omega
  set S := content.drop cur0 with hSdef
  clear_value S
  have hS : S = slice f B e := by
    rw [hSdef, hcontent, slice_drop, hB]
  have hSlen : S.length = e - B := by
    rw [hSdef, List.length_drop]
    omega
  set rows0 := (splitLines S).dropLast with hrows0
  set trailing := (splitLines S).getLastD [] with htrailing
  clear_value rows0 trailing
  have hJ : concatNl rows0 ++ trailing = S := by
    rw [hrows0, htrailing]
    exact splitLines_join S
  have hr0Nl : ∀ r ∈ rows0, '\n' ∉ r := by
    rw [hrows0]
    exact fun r hr => splitLines_pieces_no_nl S r ((List.dropLast_sublist _).subset hr)
  have htrNl : '\n' ∉ trailing := by
    rw [htrailing]
    exact splitLines_last_no_nl S
  have hlenJ : sumLens rows0 + trailing.length = e - B := by
    have := congrArg List.length hJ
    rw [List.length_append, concatNl_length, hSlen] at this
    exact this
  by_cases h4 : e ≥ f.length
  case neg =>
    rw [if_neg h4] at h
    have hfi := Option.some.inj h
    rcases hbr with ⟨hdl, -⟩ | ⟨-, hrows, hend⟩
    · rw [Bool.not_eq_false', decide_eq_true_eq] at hdl
      exact absurd hdl h4
    have hEeq : ch.offset_end = B + sumLens rows0 := by
      rw [hend, hrows, hB]
      omega
    have hEle : ch.offset_end ≤ e := by
      rw [hEeq]
      omega
    have hch : ch.rows ≠ [] → chunkWF f ch := by
      intro hne
      rw [hrows] at hne
      have hsum1 : 1 ≤ sumLens rows0 := sumLens_pos _ hne
      have hslice : slice f ch.offset_begin ch.offset_end = concatNl ch.rows := by
        rw [hbeg, hEeq, hrows]
        have h5 := slice_take f B e (sumLens rows0) (by omega)
        rw [← hS, ← hJ] at h5
        nth_rewrite 1 [show sumLens rows0 = (concatNl rows0).length from
          (concatNl_length rows0).symm] at h5
        rw [List.take_left] at h5
        exact h5.symm
      have hnlend : f.get? (ch.offset_end - 1) = some '\n' := by
        have hq := slice_get? f ch.offset_begin ch.offset_end (ch.offset_end - 1)
          (by omega) (by omega)
        rw [hslice, hrows] at hq
        have hlast := get?_last_of_getLastD (concatNl rows0) ' ' (by
          intro hcnil
          have := congrArg List.length hcnil
          rw [concatNl_length] at this
          simp at this
          omega)
        rw [concatNl_getLastD rows0 hne ' '] at hlast
        rw [← hq]
        rw [show ch.offset_end - 1 - ch.offset_begin = (concatNl rows0).length - 1 by
          rw [concatNl_length, hbeg, hEeq]; omega]
        exact hlast
      have hendLLS : ch.offset_end ≤ lastLineStart f := by
        by_contra hcon
        have hq := nl_in_last_region f (ch.offset_end - 1) (by omega) hnlend
        omega
      refine ⟨hrows ▸ hne, hnl, ?_, hendLLS, hslice⟩
      rw [hbeg]
      exact hB_ls
    have hBfi : ∀ c ∈ d.chunks, ch.offset_end < c.offset_end →
        ch.offset_end ≤ c.offset_begin := by
      intro c hc hlt2
      by_contra hcon
      have hcb : c.offset_begin < e := by omega
      have hce := he_prop c hc hcb
      have hnlc := chunkWF_end_nl f c (hcwf c hc)
      have hclt := hlt c hc
      have hq := slice_get? f B e (c.offset_end - 1) (by omega) (by omega)
      rw [← hS, ← hJ] at hq
      rw [hnlc] at hq
      have hidx : (concatNl rows0).length ≤ c.offset_end - 1 - B := by
        rw [concatNl_length]
        omega
      rw [List.get?_append_right hidx] at hq
      have hmem := List.get?_mem hq
      exact htrNl hmem
    have hmain := finishInsert_main f d ch ⟨hfile, hsize, hpw, hcwf⟩ hch
      (by rw [hbeg]; exact haA) hBfi
    rw [hfi] at hmain
    exact ⟨hmain.1, Or.inl hmain.2.1, hmain.2.2⟩
  case pos =>
    rw [if_pos h4] at h
    have heq : e = f.length := by omega
    by_cases h5 : ch.rows = []
    · rw [if_pos h5] at h
      exact absurd h (by simp)
    rw [if_neg h5] at h
    have hSdropf : S = f.drop B := by
      rw [hS, heq, slice_to_end]
    obtain ⟨R1, hR1nl, hfB⟩ := lineStart_take_concat f B hB_ls (by omega)
    have hfd : f = concatNl R1 ++ S := by
      rw [hSdropf, ← hfB, List.take_append_drop]
    have hch_end : ch.offset_end = f.length := by
      rcases hbr with ⟨-, htrne, hrows, hend⟩ | ⟨hdl, hrows, hend⟩
      · rw [hend]
        omega
      · rw [hend, hrows]
        have hdl2 : trailing = [] := by
          rcases hdl with hdl1 | hdl1
          · rw [Bool.not_eq_true', decide_eq_false_iff_not] at hdl1
            exact absurd (by omega) hdl1
          · exact hdl1
        rw [hdl2, List.length_nil] at hlenJ
        omega
    rcases hbr with ⟨-, htrne, hrows, hend⟩ | ⟨hdl, hrows, hend⟩
    · -- cover, trailing nonempty: last line is the un-terminated trailing text
      have hSne : S ≠ [] := by
        intro hc
        rw [← hJ] at hc
        exact htrne (List.append_eq_nil.mp hc).2
      have hcur0lt : cur0 < content.length := by
        have := congrArg List.length hSdef.symm
        rw [List.length_drop] at this
        by_contra hcon
        have hz : S.length = 0 := by omega
        exact hSne (List.length_eq_zero.mp hz)
      have hcond : ¬content.getLastD ' ' = '\n' := by
        have h6 : S.getLastD ' ' = content.getLastD ' ' := by
          rw [hSdef]
          exact getLastD_drop content cur0 ' ' (hSdef ▸ hSne)
        rw [← h6, ← hJ, getLastD_append_right _ _ _ htrne]
        intro hcon
        exact htrNl (hcon ▸ getLastD_mem trailing ' ' htrne)
      rw [if_neg hcond] at h
      have hfi := Option.some.inj h
      have hlast0 : ch.rows.getLastD [] = trailing := by
        rw [hrows, getLastD_concat]
      have hdl : ch.rows.dropLast = rows0 := by
        rw [hrows, List.dropLast_concat]
      have hfll : fileLastLine f = trailing := by
        refine fileLastLine_of_decomp_ne f (R1 ++ rows0) trailing ?_ htrNl htrne ?_
        · intro r hr
          rcases List.mem_append.mp hr with h6 | h6
          · exact hR1nl r h6
          · exact hr0Nl r h6
        · rw [concatNl_append, List.append_assoc, hJ]
          exact hfd
      have hLLS : lastLineStart f = f.length - trailing.length := by
        unfold lastLineStart
        rw [hfll]
      have hch2 : ∀ dd : Document, dd.file = d.file → dd.document_size = d.document_size →
          dd.chunks = d.chunks → dd.last_line = some trailing →
          WFcore f (finishInsert dd ⟨ch.offset_begin,
              ch.offset_end - (ch.rows.getLastD []).length, ch.rows.dropLast⟩).1 ∧
          (finishInsert dd ⟨ch.offset_begin,
              ch.offset_end - (ch.rows.getLastD []).length, ch.rows.dropLast⟩).1.last_line =
            some trailing ∧
          ∀ q, (∃ c ∈ d.chunks, c.offset_begin ≤ q ∧ q < c.offset_end) →
            ∃ c ∈ (finishInsert dd ⟨ch.offset_begin,
              ch.offset_end - (ch.rows.getLastD []).length, ch.rows.dropLast⟩).1.chunks,
              c.offset_begin ≤ q ∧ q < c.offset_end := by
        intro dd hdf hds hdc hdl2
        have hwfdd : WFcore f dd := by
          refine ⟨by rw [hdf, hfile], by rw [hds, hsize], by rw [hdc]; exact hpw, ?_⟩
          intro c hc
          rw [hdc] at hc
          exact hcwf c hc
        have hend2 : ch.offset_end - (ch.rows.getLastD []).length = lastLineStart f := by
          rw [hlast0, hch_end, hLLS]
        have hres := finishInsert_main f dd
          ⟨ch.offset_begin, ch.offset_end - (ch.rows.getLastD []).length, ch.rows.dropLast⟩
          hwfdd
          (by
            intro hne2
            dsimp only at hne2 ⊢
            rw [hdl] at hne2 ⊢
            have hsum2 : sumLens rows0 + trailing.length = f.length - B := by omega
            refine ⟨hne2, hr0Nl, by rw [hbeg]; exact hB_ls, ?_, ?_⟩
            · rw [hend2]
            · rw [hbeg, hend2, hLLS]
              have h7 := slice_take f B e (sumLens rows0) (by omega)
              rw [← hS, ← hJ] at h7
              nth_rewrite 1 [show sumLens rows0 = (concatNl rows0).length from
                (concatNl_length rows0).symm] at h7
              rw [List.take_left] at h7
              rw [show f.length - trailing.length = B + sumLens rows0 by omega]
              exact h7.symm)
          (by
            intro c hc hclt2
            rw [hdc] at hc
            have h9 : ch.offset_begin = B := hbeg
            rw [h9]
            exact haA c hc (by rw [h9] at hclt2; exact hclt2))
          (by
            intro c hc hlt2
            rw [hdc] at hc
            have h8 := (hcwf c hc).2.2.2.1
            dsimp only at hlt2 ⊢
            rw [hend2] at hlt2 ⊢
            omega)
        refine ⟨hres.1, ?_, ?_⟩
        · rw [hres.2.1, hdl2]
        · intro q hq
          refine hres.2.2 q ?_
          rw [hdc]
          exact hq
      have hfin := hch2 ⟨f, d.chunks, d.log_timestamp_format, d.log_default_date,
          some (ch.rows.getLastD []), f.length, d.default_chunk_size⟩
        hfile.symm hsize.symm rfl (by rw [hlast0])
      rw [hfi] at hfin
      exact ⟨hfin.1, Or.inr (by rw [hfin.2.1, hfll]), hfin.2.2⟩
    · -- cover, trailing empty: the final full row is popped with its newline
      have htr0 : trailing = [] := by
        rcases hdl with hdl1 | hdl1
        · rw [Bool.not_eq_true', decide_eq_false_iff_not] at hdl1
          exact absurd (by omega) hdl1
        · exact hdl1
      have hSeq : S = concatNl rows0 := by
        rw [← hJ, htr0, List.append_nil]
      have hne0 : rows0 ≠ [] := by
        intro hc
        rw [hrows, hc] at h5
        exact h5 rfl
      have hSne : S ≠ [] := by
        rw [hSeq]
        intro hc
        have := congrArg List.length hc
        rw [concatNl_length] at this
        have := sumLens_pos rows0 hne0
        simp at *
        omega
      have hcond : content.getLastD ' ' = '\n' := by
        have h6 : S.getLastD ' ' = content.getLastD ' ' := by
          rw [hSdef]
          exact getLastD_drop content cur0 ' ' (hSdef ▸ hSne)
        rw [← h6, hSeq]
        exact concatNl_getLastD rows0 hne0 ' '
      rw [if_pos hcond] at h
      have hfi := Option.some.inj h
      have hlast0 : ch.rows.getLastD [] = rows0.getLastD [] := by
        rw [hrows]
      have hdlr : ch.rows.dropLast = rows0.dropLast := by
        rw [hrows]
      have hsplitr : rows0.dropLast ++ [rows0.getLastD []] = rows0 :=
        dropLast_concat_getLastD rows0 [] hne0
      have hlastmem : rows0.getLastD [] ∈ rows0 := getLastD_mem rows0 [] hne0
      have hlastnl : '\n' ∉ rows0.getLastD [] := hr0Nl _ hlastmem
      have hsums : sumLens rows0 = sumLens rows0.dropLast + ((rows0.getLastD []).length + 1) := by
        conv_lhs => rw [← hsplitr]
        rw [sumLens_append, sumLens_cons, sumLens_nil]
      have hfll : fileLastLine f = rows0.getLastD [] ++ ['\n'] := by
        refine fileLastLine_of_decomp_nl f (R1 ++ rows0.dropLast) (rows0.getLastD []) ?_ hlastnl ?_
        · intro r hr
          rcases List.mem_append.mp hr with h6 | h6
          · exact hR1nl r h6
          · exact hr0Nl r ((List.dropLast_sublist _).subset h6)
        · have hx : concatNl (R1 ++ rows0.dropLast) ++ (rows0.getLastD [] ++ ['\n']) =
              concatNl R1 ++ concatNl rows0 := by
            rw [concatNl_append, List.append_assoc]
            congr 1
            rw [show rows0.getLastD [] ++ ['\n'] = concatNl [rows0.getLastD []] by
              rw [concatNl_cons, concatNl_nil]]
            rw [← concatNl_append, hsplitr]
          rw [hx, ← hSeq]
          exact hfd
      have hLLS : lastLineStart f = f.length - ((rows0.getLastD []).length + 1) := by
        unfold lastLineStart
        rw [hfll, List.length_append]
        simp
      have hch2 : ∀ dd : Document, dd.file = d.file → dd.document_size = d.document_size →
          dd.chunks = d.chunks → dd.last_line = some (rows0.getLastD [] ++ ['\n']) →
          WFcore f (finishInsert dd ⟨ch.offset_begin,
              ch.offset_end - (ch.rows.getLastD [] ++ ['\n']).length, ch.rows.dropLast⟩).1 ∧
          (finishInsert dd ⟨ch.offset_begin,
              ch.offset_end - (ch.rows.getLastD [] ++ ['\n']).length, ch.rows.dropLast⟩).1.last_line =
            some (rows0.getLastD [] ++ ['\n']) ∧
          ∀ q, (∃ c ∈ d.chunks, c.offset_begin ≤ q ∧ q < c.offset_end) →
            ∃ c ∈ (finishInsert dd ⟨ch.offset_begin,
              ch.offset_end - (ch.rows.getLastD [] ++ ['\n']).length, ch.rows.dropLast⟩).1.chunks,
              c.offset_begin ≤ q ∧ q < c.offset_end := by
        intro dd hdf hds hdc hdl2
        have hwfdd : WFcore f dd := by
          refine ⟨by rw [hdf, hfile], by rw [hds, hsize], by rw [hdc]; exact hpw, ?_⟩
          intro c hc
          rw [hdc] at hc
          exact hcwf c hc
        have hlrlen : (ch.rows.getLastD [] ++ ['\n']).length = (rows0.getLastD []).length + 1 := by
          rw [hlast0, List.length_append]
          simp
        have hend2 : ch.offset_end - (ch.rows.getLastD [] ++ ['\n']).length = lastLineStart f := by
          rw [hlrlen, hch_end, hLLS]
        have hres := finishInsert_main f dd
          ⟨ch.offset_begin, ch.offset_end - (ch.rows.getLastD [] ++ ['\n']).length,
            ch.rows.dropLast⟩
          hwfdd
          (by
            intro hne2
            dsimp only at hne2 ⊢
            rw [hdlr] at hne2 ⊢
            refine ⟨hne2, fun r hr => hr0Nl r ((List.dropLast_sublist _).subset hr),
              by rw [hbeg]; exact hB_ls, ?_, ?_⟩
            · rw [hend2]
            · rw [hbeg, hend2, hLLS]
              have hsum2 : sumLens rows0 = f.length - B := by
                rw [htr0, List.length_nil] at hlenJ
                omega
              have h7 := slice_take f B e (sumLens rows0.dropLast) (by omega)
              have hScc : S = concatNl rows0.dropLast ++ concatNl [rows0.getLastD []] := by
                rw [← concatNl_append, hsplitr, hSeq]
              rw [← hS, hScc] at h7
              nth_rewrite 1 [show sumLens rows0.dropLast = (concatNl rows0.dropLast).length from
                (concatNl_length rows0.dropLast).symm] at h7
              rw [List.take_left] at h7
              rw [show f.length - ((rows0.getLastD []).length + 1) =
                B + sumLens rows0.dropLast by omega]
              exact h7.symm)
          (by
            intro c hc hclt2
            rw [hdc] at hc
            have h9 : ch.offset_begin = B := hbeg
            rw [h9]
            exact haA c hc (by rw [h9] at hclt2; exact hclt2))
          (by
            intro c hc hlt2
            rw [hdc] at hc
            have h8 := (hcwf c hc).2.2.2.1
            dsimp only at hlt2 ⊢
            rw [hend2] at hlt2 ⊢
            omega)
        refine ⟨hres.1, ?_, ?_⟩
        · rw [hres.2.1, hdl2]
        · intro q hq
          refine hres.2.2 q ?_
          rw [hdc]
          exact hq
      have hfin := hch2 ⟨f, d.chunks, d.log_timestamp_format, d.log_default_date,
          some (ch.rows.getLastD [] ++ ['\n']), f.length, d.default_chunk_size⟩
        hfile.symm hsize.symm rfl (by rw [hlast0])
      rw [hfi] at hfin
      exact ⟨hfin.1, Or.inr (by rw [hfin.2.1, hfll]), hfin.2.2⟩

theorem loadChunk_WF (f : Str) (d : Document) (ob oe : Nat) (d' : Document)
    (res : Option Nat) (hwf : WF f d) (h : d.loadChunk ob oe = some (d', res)) :
    WF f d' := by
  obtain ⟨hcore, hlast⟩ := hwf
  obtain ⟨hcore', hl', -⟩ := loadChunk_main f d ob oe d' res hcore h
  refine ⟨hcore', ?_⟩
  rcases hl' with h1 | h1
  · rw [h1, hlast]
  · exact h1

theorem new_WF (f : Str) (d : Document) (h : Document.new f = some d) : WF f d := by
  unfold Document.new at h
  dsimp only at h
  have hwf0 : WFcore f (⟨f, [], none, none, none, f.length, DEFAULT_CHUNK_SIZE⟩ : Document) :=
    ⟨rfl, rfl, List.Pairwise.nil, by intro c hc; simp at hc⟩
  by_cases h1 : 0 < f.length
  · rw [if_pos h1] at h
    cases hl : (⟨f, [], none, none, none, f.length, DEFAULT_CHUNK_SIZE⟩ : Document).loadChunk
        (f.length - DEFAULT_CHUNK_SIZE) f.length with
    | none =>
      rw [hl] at h
      exact absurd h (by simp)
    | some p =>
      obtain ⟨d1, r⟩ := p
      rw [hl] at h
      dsimp only at h
      obtain ⟨hcore1, hl1, -⟩ := loadChunk_main f _ _ _ d1 r hwf0 hl
      by_cases h2 : d1.last_line.isSome
      · rw [if_pos h2] at h
        have hd : d1 = d := Option.some.inj h
        subst hd
        refine ⟨hcore1, ?_⟩
        rcases hl1 with h3 | h3
        · rw [h3] at h2
          simp at h2
        · exact h3
      · rw [if_neg h2] at h
        exact absurd h (by simp)
  · rw [if_neg h1] at h
    have hf0 : f = [] := List.length_eq_zero.mp (by omega)
    have hd := Option.some.inj h
    subst hd
    refine ⟨⟨rfl, rfl, List.Pairwise.nil, by intro c hc; simp at hc⟩, ?_⟩
    rw [hf0]
    rfl

/-- One Document mutation step: some load_chunk call succeeded (all chunk-list
mutations of the source go through load_chunk). -/
def LoadStep (d d' : Document) : Prop := ∃ ob oe r, d.loadChunk ob oe = some (d', r)

theorem reach_WF (f : Str) (d0 d : Document) (h0 : Document.new f = some d0)
    (h : Relation.ReflTransGen LoadStep d0 d) : WF f d := by
  induction h with
  | refl => exact new_WF f d0 h0
  | tail h1 hstep ih =>
    obtain ⟨ob, oe, r, hl⟩ := hstep
    exact loadChunk_WF f _ ob oe _ r ih hl

/-- Claim C1: from construction, through any sequence of load_chunk calls, the
chunk list stays strictly sorted by offset_begin and pairwise non-overlapping;
every stored chunk ends exactly at a newline and its size satisfies
offset_end − offset_begin = Σ len(rows) + #rows (the trailing un-terminated row
is never stored, being popped into last_line); and no chunk overlaps the
last-line region [last_line_start_offset(), document_size). -/
theorem document_invariant (f : Str) (d0 d : Document) (h0 : Document.new f = some d0)
    (hsteps : Relation.ReflTransGen LoadStep d0 d) :
    d.chunks.Pairwise (fun a b => a.offset_begin < b.offset_begin ∧
      a.offset_end ≤ b.offset_begin) ∧
    (∀ c ∈ d.chunks, c.offset_end - c.offset_begin =
      (c.rows.map List.length).sum + c.rows.length ∧
      d.file.get? (c.offset_end - 1) = some '\n') ∧
    (∀ c ∈ d.chunks, c.offset_end ≤ d.lastLineStartOffset) := by
  have hwf := reach_WF f d0 d h0 hsteps
  obtain ⟨⟨hfile, hsize, hpw, hcwf⟩, hlast⟩ := hwf
  refine ⟨?_, ?_, ?_⟩
  · refine List.Pairwise.imp_of_mem ?_ hpw
    intro a b ha hb hrel
    have h1 := (chunkWF_size f a (hcwf a ha)).2
    exact ⟨by omega, hrel⟩
  · intro c hc
    have h1 := (chunkWF_size f c (hcwf c hc)).1
    have h2 := chunkWF_end_nl f c (hcwf c hc)
    rw [hfile]
    refine ⟨?_, h2⟩
    rw [← sumLens_eq_sum_add]
    exact h1
  · intro c hc
    have h1 := (hcwf c hc).2.2.2.1
    rw [WF_lastLineStartOffset f d ⟨⟨hfile, hsize, hpw, hcwf⟩, hlast⟩]
    exact h1

/-- The file of the concrete invariant witness of claim C1. -/
def c1File : Str := ("ab\ncd\n").toList

/-- A fallback document for reading off Option results on concrete inputs. -/
def emptyDoc : Document := ⟨[], [], none, none, none, 0, 0⟩

/-- The document opened on the C1 witness file. -/
def c1Doc : Document := (Document.new c1File).getD emptyDoc

theorem document_invariant_witness :
    c1Doc.chunks.Pairwise (fun a b => a.offset_begin < b.offset_begin ∧
      a.offset_end ≤ b.offset_begin) ∧
    (∀ c ∈ c1Doc.chunks, c.offset_end - c.offset_begin =
      (c.rows.map List.length).sum + c.rows.length ∧
      c1Doc.file.get? (c.offset_end - 1) = some '\n') ∧
    (∀ c ∈ c1Doc.chunks, c.offset_end ≤ c1Doc.lastLineStartOffset) :=
  document_invariant c1File c1Doc c1Doc (by rfl) Relation.ReflTransGen.refl

theorem qlieGo_spec (rows : List Str) (cur offset idx i : Nat)
    (h : queryLineIndexExactlyGo rows cur offset idx = some i) :
    idx ≤ i ∧ i - idx < rows.length ∧ offset = cur + sumLens (rows.take (i - idx)) := by
  induction rows generalizing cur idx with
  | nil => exact absurd h (by simp [queryLineIndexExactlyGo])
  | cons r rs ih =>
    unfold queryLineIndexExactlyGo at h
    by_cases h1 : offset = cur
    · rw [if_pos h1] at h
      have h2 : idx = i := Option.some.inj h
      subst h2
      refine ⟨le_refl _, by simp, ?_⟩
      rw [Nat.sub_self, List.take_zero, sumLens_nil, h1]
      omega
    · rw [if_neg h1] at h
      obtain ⟨ha, hb, hc⟩ := ih (cur + r.length + 1) (idx + 1) h
      refine ⟨by omega, by simp only [List.length_cons]; omega, ?_⟩
      rw [show i - idx = (i - (idx + 1)) + 1 by omega, List.take_succ_cons, sumLens_cons]
      omega

theorem queryLineIndexExactly_spec (c : Chunk) (offset i : Nat)
    (h : c.queryLineIndexExactly offset = some i) :
    i < c.rows.length ∧ offset = c.offset_begin + sumLens (c.rows.take i) := by
  obtain ⟨h1, h2, h3⟩ := qlieGo_spec c.rows c.offset_begin offset 0 i h
  rw [Nat.sub_zero] at h2 h3
  exact ⟨h2, h3⟩

theorem concatNl_nl_pos (rows : List Str) (q : Nat)
    (hnl : ∀ r ∈ rows, '\n' ∉ r) (h : (concatNl rows).get? q = some '\n') :
    ∃ k, k < rows.length ∧ q + 1 = sumLens (rows.take (k + 1)) := by
  induction rows generalizing q with
  | nil =>
    rw [concatNl_nil] at h
    simp at h
  | cons r rs ih =>
    rw [concatNl_cons] at h
    rcases Nat.lt_trichotomy q r.length with h1 | h1 | h1
    · rw [List.get?_append (by omega)] at h
      exact absurd (List.get?_mem h) (hnl r (List.mem_cons_self _ _))
    · refine ⟨0, by simp, ?_⟩
      rw [List.take_succ_cons, List.take_zero, sumLens_cons, sumLens_nil]
      omega
    · rw [List.get?_append_right (by omega)] at h
      rw [show q - r.length = (q - r.length - 1) + 1 by omega, List.get?_cons_succ] at h
      obtain ⟨k, hk1, hk2⟩ := ih (q - r.length - 1)
        (fun r' hr' => hnl r' (List.mem_cons_of_mem _ hr')) h
      refine ⟨k + 1, by simp only [List.length_cons]; omega, ?_⟩
      rw [List.take_succ_cons, sumLens_cons]
      omega

theorem qlieGo_complete (rows : List Str) (cur idx k : Nat) (hk : k < rows.length) :
    queryLineIndexExactlyGo rows cur (cur + sumLens (rows.take k)) idx = some (idx + k) := by
  induction rows generalizing cur idx k with
  | nil => simp at hk
  | cons r rs ih =>
    unfold queryLineIndexExactlyGo
    cases k with
    | zero =>
      rw [List.take_zero, sumLens_nil, Nat.add_zero, if_pos rfl, Nat.add_zero]
    | succ k' =>
      rw [List.take_succ_cons, sumLens_cons]
      rw [if_neg (by omega)]
      have h1 := ih (cur + r.length + 1) (idx + 1) k' (by simpa using hk)
      rw [show cur + (r.length + 1 + sumLens (rs.take k')) =
        cur + r.length + 1 + sumLens (rs.take k') by omega]
      rw [show idx + (k' + 1) = idx + 1 + k' by omega]
      exact h1

theorem sumLens_take_le (rows : List Str) (i : Nat) :
    sumLens (rows.take i) ≤ sumLens rows := by
  conv_rhs => rw [← List.take_append_drop i rows]
  rw [sumLens_append]
  omega

theorem queryLineIndexExactly_complete (f : Str) (c : Chunk) (o : Nat)
    (hwfc : chunkWF f c) (ho : isLineStart f o) (h1 : c.offset_begin ≤ o)
    (h2 : o < c.offset_end) :
    ∃ i, i < c.rows.length ∧ c.queryLineIndexExactly o = some i ∧
      o = c.offset_begin + sumLens (c.rows.take i) := by
  have hsz := chunkWF_size f c hwfc
  obtain ⟨hne, hnlr, hls, hend, hslice⟩ := hwfc
  by_cases h0 : o = c.offset_begin
  · have hlen : 0 < c.rows.length := by
      cases hr : c.rows with
      | nil => exact absurd hr hne
      | cons x xs => simp
    refine ⟨0, hlen, ?_, by rw [h0, List.take_zero, sumLens_nil]; omega⟩
    unfold Chunk.queryLineIndexExactly
    have h3 := qlieGo_complete c.rows c.offset_begin 0 0 hlen
    rw [List.take_zero, sumLens_nil, Nat.add_zero] at h3
    rw [h0]
    exact h3
  · rcases ho with ho0 | honl
    · omega
    · have hq := slice_get? f c.offset_begin c.offset_end (o - 1) (by omega) (by omega)
      rw [hslice, honl] at hq
      obtain ⟨k, hk1, hk2⟩ := concatNl_nl_pos c.rows (o - 1 - c.offset_begin) hnlr hq
      have hoeq : o = c.offset_begin + sumLens (c.rows.take (k + 1)) := by omega
      have hklt : k + 1 < c.rows.length := by
        by_contra hcon
        have hkeq : c.rows.take (k + 1) = c.rows := List.take_all_of_le (by omega)
        rw [hkeq] at hoeq
        omega
      refine ⟨k + 1, hklt, ?_, hoeq⟩
      unfold Chunk.queryLineIndexExactly
      have h3 := qlieGo_complete c.rows c.offset_begin 0 (k + 1) hklt
      rw [Nat.zero_add] at h3
      rw [hoeq]
      exact h3

theorem gci_complete (chunks : List Chunk) (offset : Nat)
    (hpw : chunks.Pairwise fun a b => a.offset_end ≤ b.offset_begin)
    (hlt : ∀ c ∈ chunks, c.offset_begin < c.offset_end)
    (hcov : ∃ c ∈ chunks, c.offset_begin ≤ offset ∧ offset < c.offset_end) :
    ∃ k, getChunkIndexGo chunks 0 offset = some k := by
  cases hg : getChunkIndexGo chunks 0 offset with
  | some k => exact ⟨k, rfl⟩
  | none =>
    obtain ⟨c, hc, hcv⟩ := hcov
    exact absurd hcv (gci_none chunks 0 offset hpw hlt hg c hc)

theorem getOrLoad_lookup (f : Str) (d : Document) (o : Nat) (hwf : WF f d)
    (hcov : ∃ c ∈ d.chunks, c.offset_begin ≤ o ∧ o < c.offset_end) :
    ∃ c, d.getOrLoadChunkByOffset o = some (d, c) ∧ c ∈ d.chunks ∧
      c.offset_begin ≤ o ∧ o < c.offset_end := by
  obtain ⟨⟨hfile, hsize, hpw, hcwf⟩, hlast⟩ := hwf
  have hlt : ∀ c ∈ d.chunks, c.offset_begin < c.offset_end :=
    fun c hc => (chunkWF_size f c (hcwf c hc)).2
  obtain ⟨k, hk⟩ := gci_complete d.chunks o hpw hlt hcov
  obtain ⟨-, c, hck, hcovc⟩ := gci_some d.chunks 0 o k hk
  rw [Nat.sub_zero] at hck
  refine ⟨c, ?_, List.get?_mem hck, hcovc.1, hcovc.2⟩
  unfold Document.getOrLoadChunkByOffset Document.getChunkIndexByOffset
  rw [hk]
  dsimp only
  rw [hck]

theorem getOrLoad_load (f : Str) (d : Document) (o : Nat) (hwf : WF f d)
    (dm : Document) (c : Chunk) (h : d.getOrLoadChunkByOffset o = some (dm, c)) :
    WF f dm ∧ c ∈ dm.chunks ∧
      ∀ q, (∃ c' ∈ d.chunks, c'.offset_begin ≤ q ∧ q < c'.offset_end) →
        ∃ c' ∈ dm.chunks, c'.offset_begin ≤ q ∧ q < c'.offset_end := by
  unfold Document.getOrLoadChunkByOffset at h
  cases hg : d.getChunkIndexByOffset o with
  | some i =>
    rw [hg] at h
    dsimp only at h
    cases hget : d.chunks.get? i with
    | none =>
      rw [hget] at h
      exact absurd h (by simp)
    | some c0 =>
      rw [hget] at h
      simp only [Option.some.injEq, Prod.mk.injEq] at h
      obtain ⟨hd, hc⟩ := h
      subst hd
      subst hc
      exact ⟨hwf, List.get?_mem hget, fun q hq => hq⟩
  | none =>
    rw [hg] at h
    dsimp only at h
    cases hl : d.loadChunkAround o with
    | none =>
      rw [hl] at h
      exact absurd h (by simp)
    | some p =>
      obtain ⟨d1, r⟩ := p
      rw [hl] at h
      dsimp only at h
      cases r with
      | none => exact absurd h (by simp)
      | some i =>
        dsimp only at h
        cases hget : d1.chunks.get? i with
        | none =>
          rw [hget] at h
          exact absurd h (by simp)
        | some c0 =>
          rw [hget] at h
          simp only [Option.some.injEq, Prod.mk.injEq] at h
          obtain ⟨hd, hc⟩ := h
          subst hd
          subst hc
          unfold Document.loadChunkAround at hl
          have hmain := loadChunk_main f d _ _ d1 (some i) hwf.1 hl
          refine ⟨⟨hmain.1, ?_⟩, List.get?_mem hget, hmain.2.2⟩
          rcases hmain.2.1 with h3 | h3
          · rw [h3, hwf.2]
          · exact h3

/-- The full-line rows of the file from a given offset on: the newline-split
pieces of the region up to the last line start, without the trailing piece. -/
def rowsFrom (f : Str) (o : Nat) : List Str :=
  (splitLines (slice f o (lastLineStart f))).dropLast

/-- The file's last line with its line break removed, as
Document::last_line_without_line_break reads it on a well-formed document. -/
def lastLineNB (f : Str) : Str :=
  if (fileLastLine f).getLastD ' ' = '\n' then (fileLastLine f).dropLast else fileLastLine f

/-- The lines query_lines(o, n) must produce: the first n full rows from o,
with the last line appended when fewer than n full rows remain. -/
def specQueryLines (f : Str) (o n : Nat) : List Str :=
  (rowsFrom f o).take n ++ if (rowsFrom f o).length < n then [lastLineNB f] else []

theorem rowsFrom_beyond (f : Str) (o : Nat) (h : lastLineStart f ≤ o) :
    rowsFrom f o = [] := by
  unfold rowsFrom
  rw [show slice f o (lastLineStart f) = [] by
    unfold slice
    rw [show lastLineStart f - o = 0 by omega]
    rfl]
  rfl

theorem rowsFrom_decomp (f : Str) (c : Chunk) (o i : Nat) (hwfc : chunkWF f c)
    (hi : i ≤ c.rows.length)
    (hoff : o = c.offset_begin + sumLens (c.rows.take i)) :
    rowsFrom f o = c.rows.drop i ++ rowsFrom f c.offset_end := by
  have hsz := chunkWF_size f c hwfc
  obtain ⟨hne, hnlr, hls, hend, hslice⟩ := hwfc
  have hole : o ≤ c.offset_end := by
    have := sumLens_take_le c.rows i
    omega
  have hLf : lastLineStart f ≤ f.length := lastLineStart_le f
  have h1 : slice f o (lastLineStart f) =
      slice f o c.offset_end ++ slice f c.offset_end (lastLineStart f) :=
    slice_append f o c.offset_end (lastLineStart f) hole hend (by omega)
  have h2 : slice f o c.offset_end = concatNl (c.rows.drop i) := by
    have h3 := slice_drop f c.offset_begin c.offset_end (sumLens (c.rows.take i))
    rw [hslice, concatNl_drop, ← hoff] at h3
    exact h3.symm
  unfold rowsFrom
  rw [h1, h2, splitLines_concatNl_append _ _ (fun r hr => hnlr r (List.mem_of_mem_drop hr))]
  rw [dropLast_append_ne_nil _ _ (splitLines_ne_nil _)]

theorem specQL_step (f : Str) (o n : Nat) (A : List Str) (oNext : Nat)
    (hdec : rowsFrom f o = A ++ rowsFrom f oNext) :
    specQueryLines f o n =
      A.take (min n A.length) ++ specQueryLines f oNext (n - min n A.length) := by
  unfold specQueryLines
  rw [hdec, List.take_append_eq_append_take, List.length_append]
  by_cases hn : n ≤ A.length
  · rw [show min n A.length = n by omega, show n - n = 0 by omega,
      show n - A.length = 0 by omega]
    simp only [List.take_zero, List.length_nil]
    rw [if_neg (by omega), if_neg (by omega)]
    simp
  · rw [show min n A.length = A.length by omega,
      List.take_all_of_le (show A.length ≤ n by omega),
      List.take_all_of_le (le_refl A.length)]
    rw [List.append_assoc]
    congr 1
    by_cases hc : (rowsFrom f oNext).length < n - A.length
    · rw [if_pos (show A.length + (rowsFrom f oNext).length < n by omega), if_pos hc]
    · rw [if_neg (by omega), if_neg hc]

theorem lastLineWithoutLineBreak_WF (f : Str) (d : Document) (hwf : WF f d) :
    d.lastLineWithoutLineBreak = lastLineNB f := by
  unfold Document.lastLineWithoutLineBreak lastLineNB
  rw [hwf.2]
  rfl

theorem specQL_stop (f : Str) (d : Document) (o n : Nat) (hwf : WF f d)
    (hstop : ¬(o < d.lastLineStartOffset ∧ 0 < n)) :
    (if 0 < n then [d.lastLineWithoutLineBreak] else []) = specQueryLines f o n := by
  unfold specQueryLines
  by_cases hn : 0 < n
  · rw [if_pos hn]
    have ho : lastLineStart f ≤ o := by
      have h1 := WF_lastLineStartOffset f d hwf
      by_contra hcon
      exact hstop ⟨by omega, hn⟩
    rw [rowsFrom_beyond f o ho]
    rw [lastLineWithoutLineBreak_WF f d hwf]
    simp only [List.take_nil, List.length_nil, List.nil_append]
    rw [if_pos hn]
  · rw [if_neg hn, if_neg (by omega)]
    simp [show n = 0 by omega]

theorem queryLinesGo_run (f : Str) : ∀ fuel (d : Document) (o n : Nat) (acc : List Str)
    (d' : Document) (out : List Str), WF f d → isLineStart f o →
    queryLinesGo fuel d o n acc = some (d', out) →
    WF f d' ∧ out = acc ++ specQueryLines f o n ∧
      (∀ q, (∃ c ∈ d.chunks, c.offset_begin ≤ q ∧ q < c.offset_end) →
        ∃ c ∈ d'.chunks, c.offset_begin ≤ q ∧ q < c.offset_end) ∧
      (∀ m, m < n → o + sumLens ((rowsFrom f o).take m) < lastLineStart f →
        ∃ c ∈ d'.chunks, c.offset_begin ≤ o + sumLens ((rowsFrom f o).take m) ∧
          o + sumLens ((rowsFrom f o).take m) < c.offset_end) := by
  intro fuel
  induction fuel with
  | zero =>
    intro d o n acc d' out hwf ho h
    exact absurd h (by simp [queryLinesGo])
  | succ fuel ih =>
    intro d o n acc d' out hwf ho h
    unfold queryLinesGo at h
    by_cases hg : o < d.lastLineStartOffset ∧ 0 < n
    case neg =>
      rw [if_neg hg] at h
      simp only [Option.some.injEq, Prod.mk.injEq] at h
      obtain ⟨hd, hout⟩ := h
      subst hd
      refine ⟨hwf, ?_, fun q hq => hq, ?_⟩
      · rw [← hout, specQL_stop f d o n hwf hg]
      · intro m hm hq
        have h1 := WF_lastLineStartOffset f d hwf
        have h2 : lastLineStart f ≤ o := by
          by_contra hcon
          exact hg ⟨by omega, by omega⟩
        omega
    case pos =>
      rw [if_pos hg] at h
      obtain ⟨hgo, hgn⟩ := hg
      have hLLSd := WF_lastLineStartOffset f d hwf
      rw [hLLSd] at hgo
      cases hGL : d.getOrLoadChunkByOffset o with
      | none =>
        rw [hGL] at h
        exact absurd h (by simp)
      | some p =>
        obtain ⟨dm, c⟩ := p
        rw [hGL] at h
        dsimp only at h
        obtain ⟨hwfm, hcm, hcovm⟩ := getOrLoad_load f d o hwf dm c hGL
        cases hqi : c.queryLineIndexExactly o with
        | none =>
          rw [hqi] at h
          exact absurd h (by simp)
        | some i =>
          rw [hqi] at h
          dsimp only at h
          obtain ⟨hilt, hoff⟩ := queryLineIndexExactly_spec c o i hqi
          have hwfc : chunkWF f c := hwfm.1.2.2.2 c hcm
          have hsz := chunkWF_size f c hwfc
          have hdec : rowsFrom f o = c.rows.drop i ++ rowsFrom f c.offset_end :=
            rowsFrom_decomp f c o i hwfc (by omega) hoff
          have hAlen : (c.rows.drop i).length = c.rows.length - i := List.length_drop _ _
          have hcend : c.offset_end = o + sumLens (c.rows.drop i) := by
            have h5 : sumLens (c.rows.take i) + sumLens (c.rows.drop i) = sumLens c.rows := by
              rw [← sumLens_append, List.take_append_drop]
            omega
          obtain ⟨hwf', hout, hcov', hcovm'⟩ := ih dm c.offset_end (n - min n (c.rows.length - i))
            (acc ++ (c.rows.drop i).take (min n (c.rows.length - i))) d' out hwfm
            (chunkWF_end_lineStart f c hwfc) h
          refine ⟨hwf', ?_, fun q hq => hcov' q (hcovm q hq), ?_⟩
          · rw [hout, List.append_assoc]
            congr 1
            rw [specQL_step f o n (c.rows.drop i) c.offset_end hdec, hAlen]
          · intro m hm hq
            by_cases hmA : m < (c.rows.drop i).length
            · have hq_eq : ((rowsFrom f o).take m) = (c.rows.drop i).take m := by
                rw [hdec, List.take_append_eq_append_take,
                  show m - (c.rows.drop i).length = 0 by omega, List.take_zero,
                  List.append_nil]
              have hcv : c.offset_begin ≤ o + sumLens ((rowsFrom f o).take m) ∧
                  o + sumLens ((rowsFrom f o).take m) < c.offset_end := by
                rw [hq_eq, hcend]
                have h6 := sumLens_take_lt (c.rows.drop i) m hmA
                omega
              exact hcov' _ ⟨c, hcm, hcv⟩
            · have hq_eq : (rowsFrom f o).take m =
                  c.rows.drop i ++ (rowsFrom f c.offset_end).take (m - (c.rows.drop i).length) := by
                rw [hdec, List.take_append_eq_append_take,
                  List.take_all_of_le (by omega)]
              have hsum_eq : o + sumLens ((rowsFrom f o).take m) =
                  c.offset_end + sumLens ((rowsFrom f c.offset_end).take
                    (m - (c.rows.drop i).length)) := by
                rw [hq_eq, sumLens_append, hcend]
                omega
              rw [hsum_eq] at hq ⊢
              refine hcovm' (m - (c.rows.drop i).length) ?_ hq
              rw [hAlen]
              omega

theorem queryLinesGo_pure (f : Str) : ∀ fuel n (d : Document) (o : Nat) (acc : List Str),
    n + 1 ≤ fuel → WF f d → isLineStart f o →
    (∀ m, m < n → o + sumLens ((rowsFrom f o).take m) < lastLineStart f →
      ∃ c ∈ d.chunks, c.offset_begin ≤ o + sumLens ((rowsFrom f o).take m) ∧
        o + sumLens ((rowsFrom f o).take m) < c.offset_end) →
    queryLinesGo fuel d o n acc = some (d, acc ++ specQueryLines f o n) := by
  intro fuel
  induction fuel with
  | zero =>
    intro n d o acc hfuel hwf ho hcov
    omega
  | succ fuel ih =>
    intro n d o acc hfuel hwf ho hcov
    unfold queryLinesGo
    by_cases hg : o < d.lastLineStartOffset ∧ 0 < n
    case neg =>
      rw [if_neg hg, specQL_stop f d o n hwf hg]
    case pos =>
      rw [if_pos hg]
      obtain ⟨hgo, hgn⟩ := hg
      have hLLSd := WF_lastLineStartOffset f d hwf
      rw [hLLSd] at hgo
      have hcov0 := hcov 0 hgn (by
        rw [List.take_zero, sumLens_nil]
        omega)
      rw [List.take_zero, sumLens_nil, Nat.add_zero] at hcov0
      obtain ⟨c, hGL, hcm, hc1, hc2⟩ := getOrLoad_lookup f d o hwf hcov0
      rw [hGL]
      dsimp only
      have hwfc : chunkWF f c := hwf.1.2.2.2 c hcm
      obtain ⟨i, hilt, hqi, hoff⟩ := queryLineIndexExactly_complete f c o hwfc ho hc1 hc2
      rw [hqi]
      dsimp only
      have hsz := chunkWF_size f c hwfc
      have hdec : rowsFrom f o = c.rows.drop i ++ rowsFrom f c.offset_end :=
        rowsFrom_decomp f c o i hwfc (by omega) hoff
      have hAlen : (c.rows.drop i).length = c.rows.length - i := List.length_drop _ _
      have hcend : c.offset_end = o + sumLens (c.rows.drop i) := by
        have h5 : sumLens (c.rows.take i) + sumLens (c.rows.drop i) = sumLens c.rows := by
          rw [← sumLens_append, List.take_append_drop]
        omega
      have htaken1 : 1 ≤ min n (c.rows.length - i) := by omega
      have hrec := ih (n - min n (c.rows.length - i)) d c.offset_end
        (acc ++ (c.rows.drop i).take (min n (c.rows.length - i)))
        (by omega) hwf (chunkWF_end_lineStart f c hwfc)
        (by
          intro m' hm' hq'
          by_cases hnA : n ≤ (c.rows.drop i).length
          · rw [hAlen] at hnA
            exact absurd hm' (by omega)
          · have hm2 : (c.rows.drop i).length + m' < n := by
              rw [hAlen]
              rw [hAlen] at hnA
              omega
            have hq_eq : (rowsFrom f o).take ((c.rows.drop i).length + m') =
                c.rows.drop i ++ (rowsFrom f c.offset_end).take m' := by
              rw [hdec, List.take_append_eq_append_take,
                List.take_all_of_le (by omega), Nat.add_sub_cancel_left]
            have hsum_eq : o + sumLens ((rowsFrom f o).take ((c.rows.drop i).length + m')) =
                c.offset_end + sumLens ((rowsFrom f c.offset_end).take m') := by
              rw [hq_eq, sumLens_append, hcend]
              omega
            have := hcov ((c.rows.drop i).length + m') hm2 (by rw [hsum_eq]; exact hq')
            rw [hsum_eq] at this
            exact this)
      rw [hrec, List.append_assoc]
      congr 3
      rw [specQL_step f o n (c.rows.drop i) c.offset_end hdec, hAlen]

/-- Claim C5: on a well-formed document, once query_lines(o, n) succeeds at a
line-start offset o, repeating the same call returns the same line sequence
without further change: the second call runs on the already-loaded chunks and
returns the identical document, and neither call changes document_size or
last_line. -/
theorem query_lines_idempotent (f : Str) (d : Document) (o n : Nat) (hwf : WF f d)
    (ho : isLineStart f o) (hle : o ≤ d.lastLineStartOffset)
    (d1 : Document) (lines : List Str) (h1 : d.queryLines o n = some (d1, lines)) :
    d1.queryLines o n = some (d1, lines) ∧
      d1.document_size = d.document_size ∧ d1.last_line = d.last_line := by
  unfold Document.queryLines at h1 ⊢
  obtain ⟨hwf1, hout, hcov, hcovm⟩ := queryLinesGo_run f (n + 1) d o n [] d1 lines hwf ho h1
  have h2 := queryLinesGo_pure f (n + 1) n d1 o [] (le_refl _) hwf1 ho hcovm
  refine ⟨?_, ?_, ?_⟩
  · rw [hout]
    exact h2
  · rw [hwf1.1.2.1, hwf.1.2.1]
  · rw [hwf1.2, hwf.2]

/-- The file of the concrete query_lines witness of claim C5. -/
def c5File : Str := ("ab\ncd\nx").toList

/-- The document opened on the C5 witness file. -/
def c5Doc : Document := (Document.new c5File).getD emptyDoc

/-- The document state after the first query_lines call of the C5 witness. -/
def c5Doc1 : Document := ((c5Doc.queryLines 0 1).getD (emptyDoc, [])).1

theorem query_lines_idempotent_witness :
    c5Doc1.queryLines 0 1 = some (c5Doc1, [['a', 'b']]) ∧
      c5Doc1.document_size = c5Doc.document_size ∧ c5Doc1.last_line = c5Doc.last_line :=
  query_lines_idempotent c5File c5Doc 0 1 (new_WF c5File c5Doc (by rfl)) (Or.inl rfl)
    (by decide) c5Doc1 [['a', 'b']] (by rfl)

/-- Distance from the start of a row list to the start of its first row that
contains the pattern: the spec's running sum of len(line)+1 over the
non-matching rows before it. -/
def findRowDist : List Str → Str → Option Nat
  | [], _ => none
  | r :: rs, p =>
    if containsStr r p then some 0 else (findRowDist rs p).map (· + (r.length + 1))

/-- What query_distance_to_next_match must return from a line-start offset o:
the distance to the first matching full row at or after o, else the distance
to the last line (its region starts at the last line start) when that
matches, else none. -/
def specNextMatch (f : Str) (o : Nat) (p : Str) : Option Nat :=
  match findRowDist (rowsFrom f o) p with
  | some dd => some dd
  | none =>
    if containsStr (fileLastLine f) p then some (lastLineStart f - o) else none

/-- specNextMatch with the distance accumulator of the source loop. -/
def specNextFrom (f : Str) (o : Nat) (p : Str) (dist : Nat) : Option Nat :=
  match findRowDist (rowsFrom f o) p with
  | some dd => some (dist + dd)
  | none =>
    if containsStr (fileLastLine f) p then some (dist + (lastLineStart f - o)) else none

theorem specNextFrom_zero (f : Str) (o : Nat) (p : Str) :
    specNextFrom f o p 0 = specNextMatch f o p := by
  unfold specNextFrom specNextMatch
  cases findRowDist (rowsFrom f o) p with
  | some dd => simp
  | none =>
    by_cases hc : containsStr (fileLastLine f) p
    · rw [if_pos hc, if_pos hc]
      simp
    · rw [if_neg hc, if_neg hc]

theorem scanRows_eq (rows : List Str) (p : Str) (dist : Nat) :
    scanRows rows p dist = (findRowDist rows p).map (dist + ·) := by
  induction rows generalizing dist with
  | nil => rfl
  | cons r rs ih =>
    unfold scanRows findRowDist
    by_cases hc : containsStr r p
    · rw [if_pos hc, if_pos hc]
      simp
    · rw [if_neg hc, if_neg hc, ih]
      cases findRowDist rs p with
      | none => rfl
      | some v =>
        simp only [Option.map_some']
        congr 1
        omega

theorem findRowDist_append_some (A B : List Str) (p : Str) (dd : Nat)
    (h : findRowDist A p = some dd) : findRowDist (A ++ B) p = some dd := by
  induction A generalizing dd with
  | nil => exact absurd h (by simp [findRowDist])
  | cons r A ih =>
    unfold findRowDist at h
    rw [List.cons_append]
    show (if containsStr r p then some 0
      else (findRowDist (A ++ B) p).map (· + (r.length + 1))) = some dd
    by_cases hc : containsStr r p
    · rw [if_pos hc] at h ⊢
      exact h
    · rw [if_neg hc] at h ⊢
      cases hA : findRowDist A p with
      | none =>
        rw [hA] at h
        exact absurd h (by simp)
      | some v =>
        rw [hA] at h
        rw [ih v hA]
        exact h

theorem findRowDist_append_none (A B : List Str) (p : Str)
    (h : findRowDist A p = none) :
    findRowDist (A ++ B) p = (findRowDist B p).map (· + sumLens A) := by
  induction A with
  | nil =>
    rw [List.nil_append, sumLens_nil]
    cases findRowDist B p with
    | none => rfl
    | some v => simp
  | cons r A ih =>
    unfold findRowDist at h
    rw [List.cons_append]
    show (if containsStr r p then some 0
      else (findRowDist (A ++ B) p).map (· + (r.length + 1))) =
      (findRowDist B p).map (· + sumLens (r :: A))
    by_cases hc : containsStr r p
    · rw [if_pos hc] at h
      exact absurd h (by simp)
    · rw [if_neg hc] at h ⊢
      cases hA : findRowDist A p with
      | some v =>
        rw [hA] at h
        exact absurd h (by simp)
      | none =>
        rw [ih hA, sumLens_cons]
        cases findRowDist B p with
        | none => rfl
        | some v =>
          simp only [Option.map_some', Option.map_map, Function.comp]
          congr 1
          omega

theorem findRowDist_none_iff (rows : List Str) (p : Str) :
    findRowDist rows p = none ↔ ∀ r ∈ rows, ¬containsStr r p := by
  induction rows with
  | nil => simp [findRowDist]
  | cons r rs ih =>
    unfold findRowDist
    by_cases hc : containsStr r p
    · rw [if_pos hc]
      simp only [iff_false_intro (by simp : ¬(some (0 : Nat) = none))]
      constructor
      · intro hcon
        exact absurd hcon (by simp)
      · intro hall
        exact absurd hc (hall r (List.mem_cons_self _ _))
    · rw [if_neg hc]
      constructor
      · intro h r' hr'
        rcases List.mem_cons.mp hr' with rfl | hmem
        · exact hc
        · refine (ih.mp ?_) r' hmem
          cases hA : findRowDist rs p with
          | none => rfl
          | some v =>
            rw [hA] at h
            exact absurd h (by simp)
      · intro hall
        have h1 := ih.mpr (fun r' hr' => hall r' (List.mem_cons_of_mem _ hr'))
        rw [h1]
        rfl

theorem specNextMatch_none_iff (f : Str) (o : Nat) (p : Str) :
    specNextMatch f o p = none ↔
      (∀ row ∈ rowsFrom f o, ¬containsStr row p) ∧ ¬containsStr (fileLastLine f) p := by
  unfold specNextMatch
  cases hA : findRowDist (rowsFrom f o) p with
  | some dd =>
    constructor
    · intro hcon
      exact absurd hcon (by simp)
    · rintro ⟨h1, -⟩
      have h2 := (findRowDist_none_iff (rowsFrom f o) p).mpr h1
      rw [h2] at hA
      exact absurd hA (by simp)
  | none =>
    by_cases hc : containsStr (fileLastLine f) p
    · rw [if_pos hc]
      constructor
      · intro hcon
        exact absurd hcon (by simp)
      · rintro ⟨-, h2⟩
        exact absurd hc h2
    · rw [if_neg hc]
      exact ⟨fun _ => ⟨(findRowDist_none_iff _ _).mp hA, hc⟩, fun _ => rfl⟩

theorem specNextFrom_step (f : Str) (o : Nat) (p : Str) (dist : Nat) (A : List Str)
    (oN : Nat) (hdec : rowsFrom f o = A ++ rowsFrom f oN)
    (hoN : oN = o + sumLens A) (hle : oN ≤ lastLineStart f) :
    specNextFrom f o p dist =
      match findRowDist A p with
      | some dd => some (dist + dd)
      | none => specNextFrom f oN p (dist + sumLens A) := by
  unfold specNextFrom
  rw [hdec]
  cases hA : findRowDist A p with
  | some dd =>
    rw [findRowDist_append_some A _ p dd hA]
  | none =>
    rw [findRowDist_append_none A _ p hA]
    cases hB : findRowDist (rowsFrom f oN) p with
    | some dd =>
      simp only [Option.map_some']
      congr 1
      omega
    | none =>
      simp only [Option.map_none']
      by_cases hc : containsStr (fileLastLine f) p
      · rw [if_pos hc, if_pos hc]
        congr 1
        omega
      · rw [if_neg hc, if_neg hc]

theorem queryDistGo_run (f : Str) : ∀ fuel (d : Document) (o : Nat) (p : Str)
    (dist : Nat) (d' : Document) (r : Option Nat), WF f d → isLineStart f o →
    queryDistGo fuel d o p dist = some (d', r) →
    WF f d' ∧ r = specNextFrom f o p dist := by
  intro fuel
  induction fuel with
  | zero =>
    intro d o p dist d' r hwf ho h
    exact absurd h (by simp [queryDistGo])
  | succ fuel ih =>
    intro d o p dist d' r hwf ho h
    unfold queryDistGo at h
    by_cases hg : o < d.lastLineStartOffset
    case neg =>
      rw [if_neg hg] at h
      have hLLSd := WF_lastLineStartOffset f d hwf
      rw [hLLSd] at hg
      rw [hwf.2] at h
      dsimp only at h
      simp only [Option.some.injEq, Prod.mk.injEq] at h
      obtain ⟨hd, hr⟩ := h
      subst hd
      refine ⟨hwf, ?_⟩
      have hspec : specNextFrom f o p dist =
          if containsStr (fileLastLine f) p then some dist else none := by
        unfold specNextFrom
        rw [rowsFrom_beyond f o (by omega)]
        show (if containsStr (fileLastLine f) p then some (dist + (lastLineStart f - o))
          else none) = _
        rw [show lastLineStart f - o = 0 by omega, Nat.add_zero]
      rw [hspec, ← hr]
    case pos =>
      rw [if_pos hg] at h
      have hLLSd := WF_lastLineStartOffset f d hwf
      rw [hLLSd] at hg
      cases hGL : d.getOrLoadChunkByOffset o with
      | none =>
        rw [hGL] at h
        exact absurd h (by simp)
      | some pr =>
        obtain ⟨dm, c⟩ := pr
        rw [hGL] at h
        dsimp only at h
        obtain ⟨hwfm, hcm, -⟩ := getOrLoad_load f d o hwf dm c hGL
        cases hqi : c.queryLineIndexExactly o with
        | none =>
          rw [hqi] at h
          exact absurd h (by simp)
        | some i =>
          rw [hqi] at h
          dsimp only at h
          obtain ⟨hilt, hoff⟩ := queryLineIndexExactly_spec c o i hqi
          have hwfc : chunkWF f c := hwfm.1.2.2.2 c hcm
          have hsz := chunkWF_size f c hwfc
          have hdec : rowsFrom f o = c.rows.drop i ++ rowsFrom f c.offset_end :=
            rowsFrom_decomp f c o i hwfc (by omega) hoff
          have hcend : c.offset_end = o + sumLens (c.rows.drop i) := by
            have h5 : sumLens (c.rows.take i) + sumLens (c.rows.drop i) = sumLens c.rows := by
              rw [← sumLens_append, List.take_append_drop]
            omega
          have hstep := specNextFrom_step f o p dist (c.rows.drop i) c.offset_end hdec
            hcend hwfc.2.2.2.1
          rw [scanRows_eq] at h
          cases hA : findRowDist (c.rows.drop i) p with
          | some dd =>
            rw [hA] at h hstep
            simp only [Option.map_some'] at h
            simp only [Option.some.injEq, Prod.mk.injEq] at h
            obtain ⟨hd, hr⟩ := h
            subst hd
            exact ⟨hwfm, by rw [hstep, ← hr]⟩
          | none =>
            rw [hA] at h hstep
            simp only [Option.map_none'] at h
            obtain ⟨hwf', hr⟩ := ih dm c.offset_end p (dist + sumLens (c.rows.drop i)) d' r
              hwfm (chunkWF_end_lineStart f c hwfc) h
            exact ⟨hwf', by rw [hstep, hr]⟩

/-- Claim C2: on a well-formed document and a line-start offset, whenever
query_distance_to_next_match(o, p) returns, the result is the distance from o
to the start of the first full line at or after o containing p, the last line
(tested after the full-line region, with its raw content including any
trailing newline) contributing the distance last_line_start_offset − o; the
result is none exactly when no full line from o on and not the last line
contains p; and a caller at o = last_line_start_offset() iterates zero chunks
and unconditionally gets back the unchanged document with some 0 exactly when
the last line matches. -/
theorem query_distance_to_next_match_spec (f : Str) (d : Document) (o : Nat) (p : Str)
    (hwf : WF f d) (ho : isLineStart f o) :
    (∀ d' r, d.queryDistanceToNextMatch o p = some (d', r) →
      r = specNextMatch f o p ∧
      (r = none ↔ (∀ row ∈ rowsFrom f o, ¬containsStr row p) ∧
        ¬containsStr (fileLastLine f) p)) ∧
    (o = lastLineStart f →
      d.queryDistanceToNextMatch o p =
        some (d, if containsStr (fileLastLine f) p then some 0 else none)) := by
  constructor
  · intro d' r h
    unfold Document.queryDistanceToNextMatch at h
    obtain ⟨-, hr⟩ := queryDistGo_run f (d.document_size + 1) d o p 0 d' r hwf ho h
    rw [specNextFrom_zero] at hr
    subst hr
    exact ⟨rfl, specNextMatch_none_iff f o p⟩
  · intro ho_eq
    unfold Document.queryDistanceToNextMatch
    unfold queryDistGo
    have hLLSd := WF_lastLineStartOffset f d hwf
    rw [if_neg (by omega), hwf.2]

/-- The file of the concrete next-match witness of claim C2. -/
def c2File : Str := ("ab\ncd\nx").toList

/-- The document opened on the C2 witness file. -/
def c2Doc : Document := (Document.new c2File).getD emptyDoc

theorem query_distance_to_next_match_spec_witness :
    (some 3 : Option Nat) = specNextMatch c2File 0 ['c'] ∧
      ((some 3 : Option Nat) = none ↔
        (∀ row ∈ rowsFrom c2File 0, ¬containsStr row ['c']) ∧
        ¬containsStr (fileLastLine c2File) ['c']) :=
  (query_distance_to_next_match_spec c2File c2Doc 0 ['c']
    (new_WF c2File c2Doc (by rfl)) (Or.inl rfl)).1 c2Doc (some 3) (by rfl)

/-- The file of the concrete timestamp-jump scenario of claim C4. -/
def c4File : Str :=
  ("2024-01-01 12:00:00.000 A\n2024-01-01 12:00:05.000 B\n2024-01-01 12:00:10.000 C\n").toList

/-- Claim C4: on the three-line timestamped file, opening the document and
jumping to time 12:00:05 with no date returns byte offset 26, the start of the
second line; the format is auto-detected from the first chunk's rows and the
binary search immediately falls back to the linear scan since the whole
interval is within DEFAULT_CHUNK_SIZE. -/
theorem timestamp_jump_scenario :
    ((Document.new c4File).bind fun d =>
        (d.queryOffsetByTimestamp none ⟨12, 0, 5, 0⟩).map fun r => r.2) =
      some (some 26) := by
  rfl

end Loss
